import Mathlib

/-! Open3D `src/Core/Utility/Eigen.cpp`: normal-equation solve and pose unpacking.

A shallow embedding of the three functions of the translation unit

* `SolveLinearSystem` (file-local),
* `TransformVector6dToMatrix4d`,
* `SolveJacobianSystemAndObtainExtrinsicArray`,

together with the pieces of the Eigen library they call.

Conventions of the embedding.

* `double` is idealised as an element of a linear ordered field `K` (the reals for the
  statements that involve trigonometry, the rationals for evaluation): the arithmetic is
  exact.
* No element of such a field is a NaN or an infinity, while the `double` that holds a
  computed determinant can be either.  `std::isnan` and `std::isinf` are therefore passed
  to the functions as the parameters `isnan` and `isinf`, read as "the `double` computed
  for the exact value `d` is a NaN / is infinite"; the general theorems quantify over
  them.  `Eigen.isinfOverflow`, the choice that models overflow alone, serves the concrete
  instances.
* `std::cos` and `std::sin` are passed to the functions as the parameters `cos` and `sin`;
  the theorems about rotations instantiate them with `Real.cos` and `Real.sin`.
* `A.ldlt().solve(b)` is the algorithm of Eigen 3.3 and later in exact arithmetic: the
  in-place factorisation `P A Pᵀ = L D Lᵀ` with pivoting on the largest diagonal entry
  (`internal::ldlt_inplace<Lower>::unblocked`), followed by `LDLT::_solve_impl`, which
  divides by the pivots above its tolerance and puts zero for the others.  The status
  `info()` is not consulted by the program and is not modelled.
* `A.determinant()` is the exact determinant.
* Fixed-size Eigen types are matrices indexed by `Fin`; the dynamically sized `VectorXd`
  carries its run-time length.
-/

namespace Eigen

variable {K : Type}

/-- The type `Eigen::Matrix6d` (`Matrix<double, 6, 6>`, line 38). -/
abbrev Matrix6d (K : Type) := Matrix (Fin 6) (Fin 6) K

/-- The type `Eigen::Vector6d` (`Matrix<double, 6, 1>`, line 39). -/
abbrev Vector6d (K : Type) := Fin 6 → K

/-- The type `Eigen::Matrix4d`. -/
abbrev Matrix4d (K : Type) := Matrix (Fin 4) (Fin 4) K

/-- The type `Eigen::Matrix3d`. -/
abbrev Matrix3d (K : Type) := Matrix (Fin 3) (Fin 3) K

/-- The type `Eigen::Vector3d`. -/
abbrev Vector3d (K : Type) := Fin 3 → K

/-- The type `Eigen::VectorXd`: a column whose number of rows is known at run time. -/
structure VectorXd (K : Type) where
  /-- The member `rows()`. -/
  rows : Nat
  /-- The coefficients, `operator()(i)`. -/
  coeff : Fin rows → K

/-- The conversion of a fixed-size column to a `VectorXd`. -/
def VectorXd.ofFn {n : Nat} (v : Fin n → K) : VectorXd K := ⟨n, v⟩

/-- The expression `Eigen::Vector6d::Zero()`, converted to a `VectorXd`. -/
def VectorXd.zero6 [Zero K] : VectorXd K := VectorXd.ofFn (fun _ : Fin 6 => (0 : K))

/-- The fixed-size segment `x.block<6, 1>(start, 0)` of a `VectorXd`.  Eigen requires
`start + 6 ≤ x.rows()`; outside that range the embedding reads `0`. -/
def VectorXd.block6 [Zero K] (x : VectorXd K) (start : Nat) : Vector6d K :=
  fun k => if h : start + k.val < x.rows then x.coeff ⟨start + k.val, h⟩ else 0

/-- The member `rows()` of a matrix with `r` rows. -/
def rows {r c : Nat} (_M : Matrix (Fin r) (Fin c) K) : Nat := r

/-- The member `cols()` of a matrix with `c` columns. -/
def cols {r c : Nat} (_M : Matrix (Fin r) (Fin c) K) : Nat := c

/-- The member `rows()` of a fixed-size column vector. -/
def vrows {r : Nat} (_v : Fin r → K) : Nat := r

/-- The segment `v.block<3, 1>(start, 0)` of a six-vector, as a 3 x 1 matrix. -/
def block31 (v : Vector6d K) (start : Nat) (h : start + 3 ≤ 6) : Matrix (Fin 3) (Fin 1) K :=
  fun i _ => v ⟨start + i.val, by omega⟩

/-- The read access `M.block<p, q>(i0, j0)`. -/
def block {r c : Nat} (p q : Nat) (M : Matrix (Fin r) (Fin c) K) (i0 j0 : Nat)
    (hi : i0 + p ≤ r) (hj : j0 + q ≤ c) : Matrix (Fin p) (Fin q) K :=
  fun i j => M ⟨i0 + i.val, by omega⟩ ⟨j0 + j.val, by omega⟩

/-- The assignment `M.block<p, q>(i0, j0) = B`: the entries of the block are replaced by
those of `B`, every other entry of `M` is kept. -/
def setBlock {r c p q : Nat} (M : Matrix (Fin r) (Fin c) K) (i0 j0 : Nat)
    (B : Matrix (Fin p) (Fin q) K) : Matrix (Fin r) (Fin c) K :=
  fun i j =>
    if h : (i0 ≤ i.val ∧ i.val < i0 + p) ∧ (j0 ≤ j.val ∧ j.val < j0 + q) then
      B ⟨i.val - i0, by omega⟩ ⟨j.val - j0, by omega⟩
    else M i j


/-- The member `determinant()` of a square matrix. -/
def determinant [CommRing K] {n : Nat} (A : Matrix (Fin n) (Fin n) K) : K := A.det

section LDLT

variable [LinearOrderedField K]

/-- The smallest positive normal `double`, `std::numeric_limits<double>::min()`. -/
def DBL_MIN : K := 1 / 2 ^ 1022

/-- The storage of an `n x n` matrix during the factorisation, indexed by row and
column; only the indices below `n` are meaningful. -/
abbrev Storage (K : Type) := Nat → Nat → K

/-- The index found by `mat.diagonal().tail(size - k).cwiseAbs().maxCoeff(&index)`, plus
`k`: the first position `i ≥ k` with the largest `|mat(i, i)|`. -/
def indexOfBiggestInCorner (mat : Storage K) (size k : Nat) : Nat :=
  (List.range' (k + 1) (size - (k + 1))).foldl
    (fun best i => if |mat best best| < |mat i i| then i else best) k

/-- The statement `mat.row(k).head(k).swap(mat.row(p).head(k))`. -/
def swapRowHeads (mat : Storage K) (k p : Nat) : Storage K :=
  fun i j =>
    if j < k then (if i = k then mat p j else if i = p then mat k j else mat i j)
    else mat i j

/-- The statement `mat.col(k).tail(s).swap(mat.col(p).tail(s))` with
`s = size - p - 1`: the rows below `p`. -/
def swapColTails (mat : Storage K) (size k p : Nat) : Storage K :=
  fun i j =>
    if p < i ∧ i < size then
      (if j = k then mat i p else if j = p then mat i k else mat i j)
    else mat i j

/-- The statement `std::swap(mat.coeffRef(k, k), mat.coeffRef(p, p))`. -/
def swapDiagonal (mat : Storage K) (k p : Nat) : Storage K :=
  fun i j =>
    if i = k ∧ j = k then mat p p else if i = p ∧ j = p then mat k k else mat i j

/-- The loop `for (i = k + 1; i < p; ++i)` that exchanges `mat(i, k)` and `mat(p, i)`;
its iterations touch pairwise distinct entries. -/
def swapMiddle (mat : Storage K) (k p : Nat) : Storage K :=
  fun i j =>
    if j = k ∧ k < i ∧ i < p then mat p i
    else if i = p ∧ k < j ∧ j < p then mat j k
    else mat i j

/-- The symmetric transposition of the indices `k` and `p` on the lower triangle
(the block `if (k != index_of_biggest_in_corner)`). -/
def applyTransposition (mat : Storage K) (size k p : Nat) : Storage K :=
  if k ≠ p then
    swapMiddle (swapDiagonal (swapColTails (swapRowHeads mat k p) size k p) k p) k p
  else mat

/-- The block `if (k > 0)`: with `temp(m) = mat(m, m) * mat(k, m)` for `m < k`,
`mat(k, k) -= A10 * temp` and `A21 -= A20 * temp`. -/
def updateColumn (mat : Storage K) (size k : Nat) : Storage K :=
  if 0 < k then
    fun i j =>
      if j = k ∧ k ≤ i ∧ i < size then
        mat i k - ∑ m in Finset.range k, mat i m * (mat m m * mat k m)
      else mat i j
  else mat

/-- The statement `A21 /= realAkk`. -/
def scaleColumn (mat : Storage K) (size k : Nat) : Storage K :=
  fun i j => if j = k ∧ k < i ∧ i < size then mat i k / mat k k else mat i j

/-- The state of `ldlt_inplace<Lower>::unblocked`: the matrix being factorised in place and
the transpositions. -/
structure LDLTState (K : Type) where
  /-- The matrix `mat`. -/
  mat : Storage K
  /-- The sequence `transpositions`. -/
  transpositions : Nat → Nat

/-- One iteration of the loop `for (k = 0; k < size; ++k)`, apart from the early return
of the iteration `k = 0`. -/
def ldltStep (size : Nat) (s : LDLTState K) (k : Nat) : LDLTState K :=
  let index_of_biggest_in_corner := indexOfBiggestInCorner s.mat size k
  let transpositions := Function.update s.transpositions k index_of_biggest_in_corner
  let mat := applyTransposition s.mat size k index_of_biggest_in_corner
  let rs := size - k - 1
  let mat := updateColumn mat size k
  let realAkk := mat k k
  let pivot_is_valid := decide (0 < |realAkk|)
  let mat := if 0 < rs ∧ pivot_is_valid = true then scaleColumn mat size k else mat
  ⟨mat, transpositions⟩

/-- The function `ldlt_inplace<Lower>::unblocked` of Eigen 3.3, in exact arithmetic; the
returned flag and the sign of the matrix are not used by `solve`. -/
def ldltUnblocked (size : Nat) (mat : Storage K) : LDLTState K :=
  if size ≤ 1 then ⟨mat, id⟩
  else
    let s := ldltStep size ⟨mat, id⟩ 0
    if 0 < |s.mat 0 0| then (List.range' 1 (size - 1)).foldl (ldltStep size) s
    else ⟨applyTransposition mat size 0 (indexOfBiggestInCorner mat size 0), id⟩

/-- The exchange of the rows `k` and `j` of a column vector. -/
def swapRows (dst : Nat → K) (k j : Nat) : Nat → K :=
  fun i => if i = k then dst j else if i = j then dst k else dst i

/-- The product `transpositions * rhs`: the rows `k` and `transpositions(k)` are
exchanged for `k = 0, ..., size - 1`. -/
def applyTranspositions (tr : Nat → Nat) (size : Nat) (rhs : Nat → K) : Nat → K :=
  (List.range size).foldl (fun dst k => if tr k ≠ k then swapRows dst k (tr k) else dst) rhs

/-- The product `transpositions.transpose() * rhs`: the same exchanges for
`k = size - 1, ..., 0`. -/
def applyTranspositionsTranspose (tr : Nat → Nat) (size : Nat) (rhs : Nat → K) : Nat → K :=
  (List.range size).foldr (fun k dst => if tr k ≠ k then swapRows dst k (tr k) else dst) rhs

/-- The call `matrixL().solveInPlace(dst)`: forward substitution with the unit lower
triangular factor. -/
def solveL (mat : Storage K) (size : Nat) (dst : Nat → K) : Nat → K :=
  (List.range size).foldl
    (fun dst i => Function.update dst i (dst i - ∑ j in Finset.range i, mat i j * dst j)) dst

/-- The loop that divides by the diagonal factor, with the pseudo-inverse of the
entries not above `tolerance = std::numeric_limits<double>::min()`.  (Eigen 3.3 takes
`1 / NumTraits<double>::highest()`, which is smaller: a pivot above `DBL_MIN` is divided by
in either case, a zero pivot in neither.) -/
def solveD (mat : Storage K) (dst : Nat → K) : Nat → K :=
  fun i => if DBL_MIN < |mat i i| then dst i / mat i i else 0

/-- The call `matrixU().solveInPlace(dst)`: back substitution with the transpose of the
unit lower triangular factor. -/
def solveU (mat : Storage K) (size : Nat) (dst : Nat → K) : Nat → K :=
  (List.range size).foldr
    (fun i dst =>
      Function.update dst i (dst i - ∑ j in Finset.Ico (i + 1) size, mat j i * dst j)) dst

/-- The member `LDLT::solve` (`_solve_impl`) on the state left by the factorisation. -/
def ldltSolveImpl (s : LDLTState K) (size : Nat) (rhs : Nat → K) : Nat → K :=
  let dst := applyTranspositions s.transpositions size rhs
  let dst := solveL s.mat size dst
  let dst := solveD s.mat dst
  let dst := solveU s.mat size dst
  applyTranspositionsTranspose s.transpositions size dst

/-- The storage of a matrix, zero outside its range. -/
def toStorage {n : Nat} (A : Matrix (Fin n) (Fin n) K) : Storage K :=
  fun i j => if h : i < n ∧ j < n then A ⟨i, h.1⟩ ⟨j, h.2⟩ else 0

/-- A column vector as a function on all indices, zero outside its range. -/
def toColumn {n : Nat} (b : Fin n → K) : Nat → K :=
  fun i => if h : i < n then b ⟨i, h⟩ else 0

/-- The expression `A.ldlt().solve(b)`. -/
def ldltSolve {n : Nat} (A : Matrix (Fin n) (Fin n) K) (b : Fin n → K) : Fin n → K :=
  fun i => ldltSolveImpl (ldltUnblocked n (toStorage A)) n (toColumn b) i.val

/-- The entry `(i, j)` of the symmetric matrix stored in the lower triangle. -/
def symRead (mat : Storage K) (i j : Nat) : K := if j ≤ i then mat i j else mat j i

/-- The permutation accumulated by the first `k` transpositions: the product of the
exchanges of `j` and `tr j` for `j < k`, the first one outermost. -/
def permOf (tr : Nat → Nat) : Nat → Equiv.Perm Nat
  | 0 => 1
  | k + 1 => permOf tr k * Equiv.swap k (tr k)

/-- The invariant of the factorisation loop before the iteration `k`: the columns below
`k` hold the factors of the permuted matrix, the columns from `k` on hold its lower
triangle. -/
def LDLTInv (A₀ : Storage K) (size k : Nat) (s : LDLTState K) : Prop :=
  (∀ j, j < k → j ≤ s.transpositions j ∧ s.transpositions j < size) ∧
  (∀ i j, j < k → j ≤ i → i < size → (i = j ∨ s.mat j j ≠ 0) →
    A₀ (permOf s.transpositions k i) (permOf s.transpositions k j) =
      (∑ m in Finset.range j, s.mat i m * (s.mat m m * s.mat j m)) +
        (if i = j then s.mat j j else s.mat i j * s.mat j j)) ∧
  (∀ i j, k ≤ j → j ≤ i → i < size →
    s.mat i j = A₀ (permOf s.transpositions k i) (permOf s.transpositions k j))

/-- Backward substitution over the rows `a, …, size - 1`, processed from the last one. -/
def solveUFrom (mat : Storage K) (size a len : Nat) (dst : Nat → K) : Nat → K :=
  (List.range' a len).foldr
    (fun i dst => Function.update dst i
      (dst i - ∑ j in Finset.Ico (i + 1) size, mat j i * dst j)) dst

/-- Unit lower triangular factor read from the strictly lower part of the storage. -/
def unitLower (mat : Storage K) (i j : Nat) : K :=
  if j < i then mat i j else if i = j then 1 else 0

/-- The diagonal factor `ldlt().vectorD()` of the factorisation of `A`. -/
def vectorD {n : Nat} (A : Matrix (Fin n) (Fin n) K) (k : Fin n) : K :=
  (ldltUnblocked n (toStorage A)).mat k.val k.val

/-- The largest finite `double`, `DBL_MAX = (2 - 2⁻⁵²) · 2¹⁰²³`. -/
def DBL_MAX : K := (2 - 1 / 2 ^ 52) * 2 ^ 1023

/-- The answer of `std::isinf` for a computed quantity of exact value `x` when overflow is
the only departure from exact arithmetic: the `double` is infinite as soon as `|x|` exceeds
`DBL_MAX`. -/
def isinfOverflow (x : K) : Bool := decide (DBL_MAX < |x|)

end LDLT

/-- The unit vector `Eigen::Vector3d::UnitX()`. -/
def UnitX [Zero K] [One K] : Vector3d K := ![1, 0, 0]

/-- The unit vector `Eigen::Vector3d::UnitY()`. -/
def UnitY [Zero K] [One K] : Vector3d K := ![0, 1, 0]

/-- The unit vector `Eigen::Vector3d::UnitZ()`. -/
def UnitZ [Zero K] [One K] : Vector3d K := ![0, 0, 1]

/-- The class `Eigen::AngleAxisd`: a rotation stored as an angle and an axis. -/
structure AngleAxisd (K : Type) where
  /-- The rotation angle, in radians. -/
  angle : K
  /-- The rotation axis. -/
  axis : Vector3d K

/-- The class `Eigen::Quaterniond`, coefficients `w + x i + y j + z k`. -/
structure Quaterniond (K : Type) where
  /-- The scalar part. -/
  w : K
  /-- The coefficient of `i`. -/
  x : K
  /-- The coefficient of `j`. -/
  y : K
  /-- The coefficient of `k`. -/
  z : K

/-- The conversion `Quaterniond(const AngleAxisd&)` of Eigen:
`ha = 0.5 * angle; w = cos(ha); vec = sin(ha) * axis`. -/
def AngleAxisd.toQuaternion [Field K] (cos sin : K → K) (aa : AngleAxisd K) :
    Quaterniond K :=
  let ha := 0.5 * aa.angle
  ⟨cos ha, sin ha * aa.axis 0, sin ha * aa.axis 1, sin ha * aa.axis 2⟩

/-- The quaternion product `a * b` of Eigen (the Hamilton product). -/
def Quaterniond.mul [Field K] (a b : Quaterniond K) : Quaterniond K :=
  ⟨a.w * b.w - a.x * b.x - a.y * b.y - a.z * b.z,
   a.w * b.x + a.x * b.w + a.y * b.z - a.z * b.y,
   a.w * b.y + a.y * b.w + a.z * b.x - a.x * b.z,
   a.w * b.z + a.z * b.w + a.x * b.y - a.y * b.x⟩

/-- The product `AngleAxisd * AngleAxisd`, which Eigen evaluates on quaternions. -/
def AngleAxisd.mul [Field K] (cos sin : K → K) (a b : AngleAxisd K) : Quaterniond K :=
  (a.toQuaternion cos sin).mul (b.toQuaternion cos sin)

/-- The product `Quaterniond * AngleAxisd`, again a quaternion. -/
def Quaterniond.mulAngleAxis [Field K] (cos sin : K → K) (a : Quaterniond K)
    (b : AngleAxisd K) : Quaterniond K :=
  a.mul (b.toQuaternion cos sin)

/-- The member `Quaterniond::matrix()`, that is `toRotationMatrix()` of Eigen. -/
def Quaterniond.matrix [Field K] (q : Quaterniond K) : Matrix3d K :=
  let tx := 2 * q.x
  let ty := 2 * q.y
  let tz := 2 * q.z
  let twx := tx * q.w
  let twy := ty * q.w
  let twz := tz * q.w
  let txx := tx * q.x
  let txy := ty * q.x
  let txz := tz * q.x
  let tyy := ty * q.y
  let tyz := tz * q.y
  let tzz := tz * q.z
  !![1 - (tyy + tzz), txy - twz, txz + twy;
     txy + twz, 1 - (txx + tzz), tyz - twx;
     txz - twy, tyz + twx, 1 - (txx + tyy)]

/-- The squared norm `w² + x² + y² + z²` of a quaternion. -/
def Quaterniond.squaredNorm [Field K] (q : Quaterniond K) : K :=
  q.w * q.w + q.x * q.x + q.y * q.y + q.z * q.z

/-- The homogeneous form of the rotation matrix of a quaternion, with diagonal
`w² + x² - y² - z²`, ...; it agrees with `Quaterniond.matrix` on unit quaternions. -/
def Quaterniond.homogeneousMatrix [Field K] (q : Quaterniond K) : Matrix3d K :=
  !![q.w * q.w + q.x * q.x - q.y * q.y - q.z * q.z, 2 * (q.x * q.y - q.w * q.z),
       2 * (q.x * q.z + q.w * q.y);
     2 * (q.x * q.y + q.w * q.z), q.w * q.w - q.x * q.x + q.y * q.y - q.z * q.z,
       2 * (q.y * q.z - q.w * q.x);
     2 * (q.x * q.z - q.w * q.y), 2 * (q.y * q.z + q.w * q.x),
       q.w * q.w - q.x * q.x - q.y * q.y + q.z * q.z]

end Eigen

namespace three

open Eigen

variable {K : Type} [LinearOrderedField K]

/-- The file-local function `SolveLinearSystem` (lines 48-64).  The arguments are a
`MatrixXd` and a `VectorXd`; `A.determinant()` requires `A` square and `solve(b)` requires
`b` to have as many rows as `A`, hence the common size `n`.  The parameters `isnan` and
`isinf` are `std::isnan` and `std::isinf` on the computed determinant. -/
def SolveLinearSystem (isnan isinf : K → Bool) {n : Nat} (A : Matrix (Fin n) (Fin n) K)
    (b : Fin n → K) : Bool × VectorXd K :=
  let solution_exist := true
  let det := determinant A
  let solution_exist :=
    if |det| < 1e-6 ∨ isnan det = true ∨ isinf det = true then false else solution_exist
  if solution_exist then
    let x := -(ldltSolve A b)
    (solution_exist, VectorXd.ofFn x)
  else
    (false, VectorXd.zero6)

/-- The function `TransformVector6dToMatrix4d` (lines 68-78). -/
def TransformVector6dToMatrix4d (cos sin : K → K) (input : Vector6d K) : Matrix4d K :=
  let output : Matrix4d K := 1
  let output := setBlock output 0 0
    (((AngleAxisd.mk (input 2) UnitZ).mul cos sin (AngleAxisd.mk (input 1) UnitY)).mulAngleAxis
      cos sin (AngleAxisd.mk (input 0) UnitX)).matrix
  let output := setBlock output 0 3 (block31 input 3 (by omega))
  output

/-- The body of `SolveJacobianSystemAndObtainExtrinsicArray` (lines 84-106), for a system
matrix with `n` rows and columns and a right-hand side with `m` rows.  The body uses its
arguments through `rows()`, `cols()` and the conversion to `MatrixXd` / `VectorXd` only, so
it is written once for all sizes; the declaration (lines 80-82) fixes `n = m = 6`.  The
warning printed on the console in the first branch is not part of the returned value. -/
def SolveJacobianSystemAndObtainExtrinsicArrayBody (cos sin : K → K) (isnan isinf : K → Bool)
    {n m : Nat} (JTJ : Matrix (Fin n) (Fin n) K) (JTr : Fin m → K) :
    Bool × List (Matrix4d K) :=
  let output_matrix_array : List (Matrix4d K) := []
  if h : rows JTJ ≠ vrows JTr ∨ cols JTJ % 6 ≠ 0 then
    (false, output_matrix_array)
  else
    let r := SolveLinearSystem isnan isinf JTJ
      (fun i => JTr (Fin.cast (Decidable.of_not_not (fun hne => h (Or.inl hne))) i))
    let solution_exist := r.1
    let x := r.2
    if solution_exist then
      let nposes := x.rows / 6
      let output_matrix_array :=
        (List.range nposes).foldl
          (fun out i => out ++ [TransformVector6dToMatrix4d cos sin (x.block6 (i * 6))])
          output_matrix_array
      (solution_exist, output_matrix_array)
    else
      (false, output_matrix_array)

/-- The function `SolveJacobianSystemAndObtainExtrinsicArray` (lines 80-107): the body
above at the declared parameter types `const Eigen::Matrix6d &` and
`const Eigen::Vector6d &`. -/
def SolveJacobianSystemAndObtainExtrinsicArray (cos sin : K → K) (isnan isinf : K → Bool)
    (JTJ : Matrix6d K) (JTr : Vector6d K) : Bool × List (Matrix4d K) :=
  SolveJacobianSystemAndObtainExtrinsicArrayBody cos sin isnan isinf JTJ JTr

/-- The elementary rotation about the X axis by the angle `a`. -/
def Rx (cos sin : K → K) (a : K) : Matrix3d K :=
  !![1, 0, 0; 0, cos a, -sin a; 0, sin a, cos a]

/-- The elementary rotation about the Y axis by the angle `a`. -/
def Ry (cos sin : K → K) (a : K) : Matrix3d K :=
  !![cos a, 0, sin a; 0, 1, 0; -sin a, 0, cos a]

/-- The elementary rotation about the Z axis by the angle `a`. -/
def Rz (cos sin : K → K) (a : K) : Matrix3d K :=
  !![cos a, -sin a, 0; sin a, cos a, 0; 0, 0, 1]

/-- The upper-left 3 x 3 block of a 4 x 4 matrix, `M.block<3, 3>(0, 0)`. -/
def rotationBlock (M : Matrix4d K) : Matrix3d K :=
  block 3 3 M 0 0 (by omega) (by omega)

/-- The upper-right 3 x 1 block of a 4 x 4 matrix, `M.block<3, 1>(0, 3)`, as a vector. -/
def translationColumn (M : Matrix4d K) : Vector3d K :=
  fun i => block 3 1 M 0 3 (by omega) (by omega) i 0

/-- The 4 x 4 homogeneous matrix with rotation block `R`, translation column `t` and
bottom row `(0, 0, 0, 1)`. -/
def homogeneous (R : Matrix3d K) (t : Vector3d K) : Matrix4d K :=
  !![R 0 0, R 0 1, R 0 2, t 0;
     R 1 0, R 1 1, R 1 2, t 1;
     R 2 0, R 2 1, R 2 2, t 2;
     0, 0, 0, 1]

/-- The facts about `std::cos` and `std::sin` the rotation theorems rest on: the
Pythagorean identity and the two double-angle formulas, at the half angle `0.5 * a`
that Eigen computes. -/
def IsTrig (cos sin : K → K) : Prop :=
  (∀ a, cos a * cos a + sin a * sin a = 1) ∧
  (∀ a, cos (0.5 * a) * cos (0.5 * a) - sin (0.5 * a) * sin (0.5 * a) = cos a) ∧
  (∀ a, 2 * (sin (0.5 * a) * cos (0.5 * a)) = sin a)

/-- A solvable sample system matrix: `diag (1, 2, 3, 1, 2, 4)`, determinant 48. -/
def sampleJTJ : Matrix6d ℚ := Matrix.diagonal ![1, 2, 3, 1, 2, 4]

/-- A solvable sample system matrix whose diagonal is already in the order of the pivot
search: `diag (4, 3, 2, 2, 1, 1)`, determinant 48. -/
def orderedJTJ : Matrix6d ℚ := Matrix.diagonal ![4, 3, 2, 2, 1, 1]

/-- A degenerate sample system matrix: `diag (1, 1, 1, 1, 1, 0)`, determinant 0. -/
def singularJTJ : Matrix6d ℚ := Matrix.diagonal ![1, 1, 1, 1, 1, 0]

/-- A symmetric, invertible system matrix with zero diagonal: it exchanges the coordinates
0 and 1, 2 and 3, 4 and 5, and is its own inverse. -/
def swapJTJ : Matrix6d ℚ :=
  !![0, 1, 0, 0, 0, 0;
     1, 0, 0, 0, 0, 0;
     0, 0, 0, 1, 0, 0;
     0, 0, 1, 0, 0, 0;
     0, 0, 0, 0, 0, 1;
     0, 0, 0, 0, 1, 0]

/-- A sample right-hand side. -/
def sampleJTr : Vector6d ℚ := ![1, 2, 3, 4, 5, 6]

/-- A sample right-hand side with twelve rows, `(0, 1, ..., 11)`. -/
def sampleJTr12 : Fin 12 → ℚ := fun i => (i.val : ℚ)

end three

namespace Eigen

variable {K : Type}

/-! ## The LDLT factorisation and solve

The factorisation loop keeps the invariant `LDLTInv`; with no zero pivot it ends with
`P A Pᵀ = L D Lᵀ` (`factorisation`), and the solve stage then returns a solution of the
system (`mulVec_ldltSolve`).  Two families of matrices are evaluated in closed form: a zero
diagonal stops the factorisation at once and the solve returns zero
(`ldltSolve_of_diag_zero`); a diagonal matrix with entries of non-increasing absolute value
is left unchanged (`vectorD_diagonal`). -/

/-- The pivot search stays inside the range it scans. -/
theorem indexOfBiggestInCorner_foldl_bounds [LinearOrderedField K] (f : Nat → K)
    (l : List Nat) (k lo hi : Nat)
    (hk : lo ≤ k ∧ k < hi) (hl : ∀ i ∈ l, lo ≤ i ∧ i < hi) :
    lo ≤ l.foldl (fun best i => if |f best| < |f i| then i else best) k ∧
      l.foldl (fun best i => if |f best| < |f i| then i else best) k < hi := by
  induction l generalizing k with
  | nil => simpa using hk
  | cons a l ih =>
    simp only [List.foldl_cons]
    apply ih
    · split_ifs
      · exact hl a (List.mem_cons_self _ _)
      · exact hk
    · intro i hi'
      exact hl i (List.mem_cons_of_mem _ hi')

/-- The pivot index lies between `k` and `size`. -/
theorem indexOfBiggestInCorner_bounds [LinearOrderedField K] (mat : Storage K) (size k : Nat) (hk : k < size) :
    k ≤ indexOfBiggestInCorner mat size k ∧ indexOfBiggestInCorner mat size k < size := by
  unfold indexOfBiggestInCorner
  apply indexOfBiggestInCorner_foldl_bounds (fun i => mat i i) _ k k size ⟨le_refl _, hk⟩
  intro i hi
  rw [List.mem_range'_1] at hi
  omega

/-- Below column `k` the transposition exchanges the rows `k` and `p`. -/
theorem applyTransposition_left (mat : Storage K) (size k p i j : Nat) (hkp : k ≤ p)
    (hj : j < k) :
    applyTransposition mat size k p i j = mat (Equiv.swap k p i) j := by
  rcases Nat.lt_trichotomy i k with h1 | h1 | h1 <;>
  rcases Nat.lt_trichotomy i p with h2 | h2 | h2 <;>
  rcases Nat.lt_trichotomy k p with h3 | h3 | h3 <;>
  first
  | omega
  | (simp (disch := omega) only [applyTransposition, swapMiddle, swapDiagonal, swapColTails,
      swapRowHeads, Equiv.swap_apply_def, if_pos, if_neg, ne_eq, not_true_eq_false,
      not_false_eq_true, ite_self] <;>
     first | rfl | (congr 1 <;> omega))

/-- From column `k` on, the transposition is the symmetric exchange of the indices `k`
and `p` on the lower triangle. -/
theorem applyTransposition_right (mat : Storage K) (size k p i j : Nat) (hkp : k ≤ p)
    (hp : p < size) (hj : k ≤ j) (hij : j ≤ i) (hi : i < size) :
    applyTransposition mat size k p i j =
      symRead mat (Equiv.swap k p i) (Equiv.swap k p j) := by
  rcases Nat.lt_trichotomy i k with h1 | h1 | h1 <;>
  rcases Nat.lt_trichotomy i p with h2 | h2 | h2 <;>
  rcases Nat.lt_trichotomy j k with h4 | h4 | h4 <;>
  rcases Nat.lt_trichotomy j p with h5 | h5 | h5 <;>
  rcases Nat.lt_trichotomy k p with h3 | h3 | h3 <;>
  first
  | omega
  | (simp (disch := omega) only [applyTransposition, swapMiddle, swapDiagonal, swapColTails,
      swapRowHeads, symRead, Equiv.swap_apply_def, if_pos, if_neg, ne_eq, not_true_eq_false,
      not_false_eq_true, ite_self] <;>
     first | rfl | (congr 1 <;> omega))

theorem permOf_congr (tr tr2 : Nat → Nat) (k : Nat) (h : ∀ j, j < k → tr j = tr2 j) :
    permOf tr k = permOf tr2 k := by
  induction k with
  | zero => rfl
  | succ k ih =>
    rw [permOf, permOf, ih (fun j hj => h j (by omega)), h k (by omega)]

theorem swap_range (k p size i : Nat) (hk : k < size) (hp : p < size) :
    Equiv.swap k p i < size ↔ i < size := by
  rw [Equiv.swap_apply_def]
  split_ifs <;> omega

theorem permOf_range (tr : Nat → Nat) (size k : Nat) (hk : k ≤ size)
    (h : ∀ j, j < k → tr j < size) (i : Nat) : permOf tr k i < size ↔ i < size := by
  induction k generalizing i with
  | zero => simp [permOf]
  | succ k ih =>
    rw [permOf, Equiv.Perm.mul_apply, ih (by omega) (fun j hj => h j (by omega)),
      swap_range k (tr k) size i (by omega) (h k (by omega))]

section step

variable [LinearOrderedField K]

theorem updateColumn_of_ne (mat : Storage K) (size k i j : Nat) (hj : j ≠ k) :
    updateColumn mat size k i j = mat i j := by
  unfold updateColumn
  by_cases h0 : 0 < k
  · rw [if_pos h0]
    exact if_neg (fun h => hj h.1)
  · rw [if_neg h0]

theorem updateColumn_col (mat : Storage K) (size k i : Nat) (hi : k ≤ i) (hn : i < size) :
    updateColumn mat size k i k =
      mat i k - ∑ m in Finset.range k, mat i m * (mat m m * mat k m) := by
  unfold updateColumn
  rcases Nat.eq_zero_or_pos k with h0 | h0
  · subst h0
    simp
  · rw [if_pos h0]
    simp [hi, hn]

theorem scaleColumn_of_ne (mat : Storage K) (size k i j : Nat) (hj : j ≠ k) :
    scaleColumn mat size k i j = mat i j :=
  if_neg (fun h => hj h.1)

theorem scaleColumn_diag (mat : Storage K) (size k : Nat) :
    scaleColumn mat size k k k = mat k k :=
  if_neg (fun h => lt_irrefl k h.2.1)

theorem scaleColumn_below (mat : Storage K) (size k i : Nat) (hi : k < i) (hn : i < size) :
    scaleColumn mat size k i k = mat i k / mat k k := by
  unfold scaleColumn
  rw [if_pos ⟨rfl, hi, hn⟩]

theorem ldltStep_mat (size : Nat) (s : LDLTState K) (k : Nat) :
    (ldltStep size s k).mat =
      if 0 < size - k - 1 ∧
          decide (0 < |updateColumn (applyTransposition s.mat size k
            (indexOfBiggestInCorner s.mat size k)) size k k k|) = true then
        scaleColumn (updateColumn (applyTransposition s.mat size k
          (indexOfBiggestInCorner s.mat size k)) size k) size k
      else
        updateColumn (applyTransposition s.mat size k
          (indexOfBiggestInCorner s.mat size k)) size k := rfl

theorem ldltStep_transpositions (size : Nat) (s : LDLTState K) (k : Nat) :
    (ldltStep size s k).transpositions =
      Function.update s.transpositions k (indexOfBiggestInCorner s.mat size k) := rfl

/-- Columns other than `k` are left alone by the update and the scaling of column `k`. -/
theorem ldltStep_mat_of_ne (size : Nat) (s : LDLTState K) (k i j : Nat) (hj : j ≠ k) :
    (ldltStep size s k).mat i j =
      applyTransposition s.mat size k (indexOfBiggestInCorner s.mat size k) i j := by
  rw [ldltStep_mat]
  split_ifs
  · rw [scaleColumn_of_ne _ _ _ _ _ hj, updateColumn_of_ne _ _ _ _ _ hj]
  · rw [updateColumn_of_ne _ _ _ _ _ hj]

/-- The pivot left on the diagonal by the iteration `k`. -/
theorem ldltStep_mat_diag (size : Nat) (s : LDLTState K) (k : Nat) (hk : k < size) :
    (ldltStep size s k).mat k k =
      applyTransposition s.mat size k (indexOfBiggestInCorner s.mat size k) k k -
        ∑ m in Finset.range k,
          applyTransposition s.mat size k (indexOfBiggestInCorner s.mat size k) k m *
            (applyTransposition s.mat size k (indexOfBiggestInCorner s.mat size k) m m *
              applyTransposition s.mat size k (indexOfBiggestInCorner s.mat size k) k m) := by
  rw [ldltStep_mat]
  split_ifs
  · rw [scaleColumn_diag, updateColumn_col _ _ _ _ (le_refl _) hk]
  · rw [updateColumn_col _ _ _ _ (le_refl _) hk]

/-- The column left below a non-zero pivot by the iteration `k`. -/
theorem ldltStep_mat_below (size : Nat) (s : LDLTState K) (k i : Nat) (hi : k < i)
    (hn : i < size) (hpiv : (ldltStep size s k).mat k k ≠ 0) :
    (ldltStep size s k).mat i k * (ldltStep size s k).mat k k =
      applyTransposition s.mat size k (indexOfBiggestInCorner s.mat size k) i k -
        ∑ m in Finset.range k,
          applyTransposition s.mat size k (indexOfBiggestInCorner s.mat size k) i m *
            (applyTransposition s.mat size k (indexOfBiggestInCorner s.mat size k) m m *
              applyTransposition s.mat size k (indexOfBiggestInCorner s.mat size k) k m) := by
  have hkk : (ldltStep size s k).mat k k = updateColumn (applyTransposition s.mat size k
      (indexOfBiggestInCorner s.mat size k)) size k k k := by
    rw [ldltStep_mat]
    split_ifs
    · rw [scaleColumn_diag]
    · rfl
  have hvalid : 0 < |updateColumn (applyTransposition s.mat size k
      (indexOfBiggestInCorner s.mat size k)) size k k k| := by
    rw [← hkk]
    exact abs_pos.mpr hpiv
  have hik : (ldltStep size s k).mat i k = updateColumn (applyTransposition s.mat size k
      (indexOfBiggestInCorner s.mat size k)) size k i k /
        updateColumn (applyTransposition s.mat size k
          (indexOfBiggestInCorner s.mat size k)) size k k k := by
    rw [ldltStep_mat, if_pos ⟨by omega, decide_eq_true hvalid⟩, scaleColumn_below _ _ _ _ hi hn]
  rw [hik, hkk, div_mul_cancel₀ _ (abs_pos.mp hvalid), updateColumn_col _ _ _ _ (le_of_lt hi) hn]

/-- The matrix after the transposition of the iteration `k` is the lower triangle of the
matrix permuted by the accumulated permutation. -/
theorem applyTransposition_eq_permuted (A₀ : Storage K) (hA : ∀ i j, A₀ i j = A₀ j i)
    (size k : Nat) (s : LDLTState K) (hk : k < size) (hinv : LDLTInv A₀ size k s)
    (i j : Nat) (hj : k ≤ j) (hij : j ≤ i) (hi : i < size) :
    applyTransposition s.mat size k (indexOfBiggestInCorner s.mat size k) i j =
      A₀ (permOf s.transpositions k (Equiv.swap k (indexOfBiggestInCorner s.mat size k) i))
        (permOf s.transpositions k (Equiv.swap k (indexOfBiggestInCorner s.mat size k) j)) := by
  obtain ⟨hp1, hp2⟩ := indexOfBiggestInCorner_bounds s.mat size k hk
  rw [applyTransposition_right _ _ _ _ _ _ hp1 hp2 hj hij hi]
  have hsi : k ≤ Equiv.swap k (indexOfBiggestInCorner s.mat size k) i ∧
      Equiv.swap k (indexOfBiggestInCorner s.mat size k) i < size := by
    rw [Equiv.swap_apply_def]
    split_ifs <;> omega
  have hsj : k ≤ Equiv.swap k (indexOfBiggestInCorner s.mat size k) j ∧
      Equiv.swap k (indexOfBiggestInCorner s.mat size k) j < size := by
    rw [Equiv.swap_apply_def]
    split_ifs <;> omega
  unfold symRead
  split_ifs with h
  · exact hinv.2.2 _ _ hsj.1 h hsi.2
  · rw [hinv.2.2 _ _ hsi.1 (by omega) hsj.2]
    exact hA _ _

/-- One iteration of the factorisation loop preserves the invariant. -/
theorem ldltStep_inv (A₀ : Storage K) (hA : ∀ i j, A₀ i j = A₀ j i)
    (size k : Nat) (s : LDLTState K) (hk : k < size) (hinv : LDLTInv A₀ size k s) :
    LDLTInv A₀ size (k + 1) (ldltStep size s k) := by
  obtain ⟨hp1, hp2⟩ := indexOfBiggestInCorner_bounds s.mat size k hk
  have htr_lt : ∀ j, j < k → (ldltStep size s k).transpositions j = s.transpositions j := by
    intro j hj
    rw [ldltStep_transpositions, Function.update_noteq (by omega)]
  have htr_k : (ldltStep size s k).transpositions k = indexOfBiggestInCorner s.mat size k := by
    rw [ldltStep_transpositions, Function.update_same]
  have hperm : permOf (ldltStep size s k).transpositions (k + 1) =
      permOf s.transpositions k * Equiv.swap k (indexOfBiggestInCorner s.mat size k) := by
    rw [permOf, htr_k, permOf_congr _ _ k htr_lt]
  -- entries of the columns below `k`
  have hleft : ∀ i m, m < k → (ldltStep size s k).mat i m =
      s.mat (Equiv.swap k (indexOfBiggestInCorner s.mat size k) i) m := by
    intro i m hm
    rw [ldltStep_mat_of_ne _ _ _ _ _ (by omega), applyTransposition_left _ _ _ _ _ _ hp1 hm]
  have hfix : ∀ m, m < k → Equiv.swap k (indexOfBiggestInCorner s.mat size k) m = m := by
    intro m hm
    exact Equiv.swap_apply_of_ne_of_ne (by omega) (by omega)
  have hT := applyTransposition_eq_permuted A₀ hA size k s hk hinv
  refine ⟨?_, ?_, ?_⟩
  · intro j hj
    rcases Nat.lt_succ_iff_lt_or_eq.mp hj with h | h
    · rw [htr_lt j h]
      exact hinv.1 j h
    · subst h
      rw [htr_k]
      exact ⟨hp1, hp2⟩
  · intro i j hj hij hi hcond
    rw [hperm, Equiv.Perm.mul_apply, Equiv.Perm.mul_apply]
    rcases Nat.lt_succ_iff_lt_or_eq.mp hj with h | h
    · -- a column below `k`
      have hsi : j ≤ Equiv.swap k (indexOfBiggestInCorner s.mat size k) i ∧
          Equiv.swap k (indexOfBiggestInCorner s.mat size k) i < size := by
        rw [Equiv.swap_apply_def]
        split_ifs <;> omega
      have hiff : Equiv.swap k (indexOfBiggestInCorner s.mat size k) i = j ↔ i = j := by
        rw [Equiv.swap_apply_def]
        split_ifs <;> omega
      have hjj : (ldltStep size s k).mat j j = s.mat j j := by
        rw [hleft j j h, hfix j h]
      have hold := hinv.2.1 (Equiv.swap k (indexOfBiggestInCorner s.mat size k) i) j h hsi.1
        hsi.2 (by
          rcases hcond with hc | hc
          · exact Or.inl (hiff.mpr hc)
          · exact Or.inr (by rwa [hjj] at hc))
      rw [hfix j h, hold, hjj, hleft i j h]
      congr 1
      · apply Finset.sum_congr rfl
        intro m hm
        rw [Finset.mem_range] at hm
        rw [hleft i m (by omega), hleft m m (by omega), hleft j m (by omega),
          hfix m (by omega), hfix j h]
      · by_cases hc : i = j
        · rw [if_pos hc, if_pos (hiff.mpr hc)]
        · rw [if_neg hc, if_neg (fun h' => hc (hiff.mp h'))]
    · -- the column `k`
      subst h
      rw [← hT i j (le_refl _) hij hi]
      have hsum : ∀ i', ∑ m in Finset.range j, (ldltStep size s j).mat i' m *
            ((ldltStep size s j).mat m m * (ldltStep size s j).mat j m) =
          ∑ m in Finset.range j,
            applyTransposition s.mat size j (indexOfBiggestInCorner s.mat size j) i' m *
              (applyTransposition s.mat size j (indexOfBiggestInCorner s.mat size j) m m *
                applyTransposition s.mat size j (indexOfBiggestInCorner s.mat size j) j m) := by
        intro i'
        apply Finset.sum_congr rfl
        intro m hm
        rw [Finset.mem_range] at hm
        rw [ldltStep_mat_of_ne _ _ _ _ _ (by omega : m ≠ j),
          ldltStep_mat_of_ne _ _ _ _ _ (by omega : m ≠ j),
          ldltStep_mat_of_ne _ _ _ _ _ (by omega : m ≠ j)]
      rw [hsum i]
      by_cases hc : i = j
      · subst hc
        rw [if_pos rfl, ldltStep_mat_diag _ _ _ hk]
        ring
      · rw [if_neg hc]
        have hpiv : (ldltStep size s j).mat j j ≠ 0 := by
          rcases hcond with h' | h'
          · exact absurd h' hc
          · exact h'
        rw [ldltStep_mat_below _ _ _ _ (by omega) hi hpiv]
        ring
  · intro i j hj hij hi
    rw [hperm, Equiv.Perm.mul_apply, Equiv.Perm.mul_apply,
      ldltStep_mat_of_ne _ _ _ _ _ (by omega : j ≠ k)]
    exact hT i j (by omega) hij hi

/-- The invariant holds before the first iteration. -/
theorem LDLTInv_zero (A₀ : Storage K) (size : Nat) : LDLTInv A₀ size 0 ⟨A₀, id⟩ := by
  refine ⟨fun j hj => absurd hj (Nat.not_lt_zero j), fun i j hj => absurd hj (Nat.not_lt_zero j),
    fun i j _ _ _ => rfl⟩

/-- The invariant is carried through a run of consecutive iterations. -/
theorem ldltStep_foldl_inv (A₀ : Storage K) (hA : ∀ i j, A₀ i j = A₀ j i) (size : Nat)
    (len a : Nat) (s : LDLTState K) (ha : a + len ≤ size) (hinv : LDLTInv A₀ size a s) :
    LDLTInv A₀ size (a + len) ((List.range' a len).foldl (ldltStep size) s) := by
  induction len generalizing a s with
  | zero => simpa using hinv
  | succ len ih =>
    rw [List.range'_succ, List.foldl_cons]
    have := ih (a + 1) (ldltStep size s a) (by omega)
      (ldltStep_inv A₀ hA size a s (by omega) hinv)
    rwa [Nat.add_assoc, Nat.add_comm 1 len] at this

/-- The state returned by the factorisation satisfies the invariant at `k = size` when the
first pivot is not zero: the factors of the permuted matrix have been computed. -/
theorem ldltUnblocked_inv (A₀ : Storage K) (hA : ∀ i j, A₀ i j = A₀ j i) (size : Nat)
    (hpiv : 0 < size → (ldltUnblocked size A₀).mat 0 0 ≠ 0) :
    LDLTInv A₀ size size (ldltUnblocked size A₀) := by
  unfold ldltUnblocked at hpiv ⊢
  by_cases h1 : size ≤ 1
  · rw [if_pos h1]
    rcases Nat.eq_zero_or_pos size with h0 | h0
    · subst h0
      exact LDLTInv_zero A₀ 0
    · have hs : size = 1 := by omega
      subst hs
      refine ⟨fun j hj => ?_, fun i j hj hij hi _ => ?_, fun i j hj hij hi => ?_⟩
      · simp only [id]
        omega
      · have hj0 : j = 0 := by omega
        have hi0 : i = 0 := by omega
        subst hj0 hi0
        simp [permOf]
      · omega
  · rw [if_neg h1] at hpiv ⊢
    have hstep := ldltStep_inv A₀ hA size 0 ⟨A₀, id⟩ (by omega) (LDLTInv_zero A₀ size)
    have hd := ldltStep_mat_diag size ⟨A₀, id⟩ 0 (by omega)
    simp only [Finset.range_zero, Finset.sum_empty, sub_zero] at hd
    by_cases h2 : 0 < |(ldltStep size ⟨A₀, id⟩ 0).mat 0 0|
    · simp only [h2, if_true]
      have := ldltStep_foldl_inv A₀ hA size (size - 1) 1 _ (by omega) hstep
      rwa [show 1 + (size - 1) = size by omega] at this
    · exfalso
      simp only [h2, if_false] at hpiv
      apply hpiv (by omega)
      rw [← hd]
      by_contra h3
      exact h2 (abs_pos.mpr h3)

/-- Applying the transpositions in order reads the right-hand side through the accumulated
permutation. -/
theorem applyTranspositions_eq (tr : Nat → Nat) (size : Nat) (rhs : Nat → K) (i : Nat) :
    applyTranspositions tr size rhs i = rhs (permOf tr size i) := by
  induction size generalizing i with
  | zero => rfl
  | succ n ih =>
    unfold applyTranspositions at ih ⊢
    rw [List.range_succ, List.foldl_append, List.foldl_cons, List.foldl_nil]
    by_cases h : tr n = n
    · rw [if_neg (fun hne => hne h), ih]
      simp [permOf, h]
    · rw [if_pos h]
      simp only [swapRows, permOf, Equiv.Perm.mul_apply, Equiv.swap_apply_def]
      by_cases h1 : i = n
      · rw [if_pos h1, if_pos h1, ih]
      · rw [if_neg h1, if_neg h1]
        by_cases h2 : i = tr n
        · rw [if_pos h2, if_pos h2, ih]
        · rw [if_neg h2, if_neg h2, ih]

/-- Applying the transpositions in reverse order reads through the inverse permutation. -/
theorem applyTranspositionsTranspose_eq (tr : Nat → Nat) (size : Nat) (rhs : Nat → K)
    (i : Nat) :
    applyTranspositionsTranspose tr size rhs i = rhs ((permOf tr size)⁻¹ i) := by
  induction size generalizing rhs i with
  | zero => rfl
  | succ n ih =>
    unfold applyTranspositionsTranspose at ih ⊢
    rw [List.range_succ, List.foldr_append, List.foldr_cons, List.foldr_nil, ih]
    have hinv : (permOf tr (n + 1))⁻¹ i = Equiv.swap n (tr n) ((permOf tr n)⁻¹ i) := by
      simp [permOf, mul_inv_rev]
    rw [hinv]
    by_cases h : tr n = n
    · rw [if_neg (fun hne => hne h)]
      simp [h]
    · rw [if_pos h]
      simp only [swapRows, Equiv.swap_apply_def]
      split_ifs <;> rfl

/-- Forward substitution solves the unit lower triangular system row by row. -/
theorem solveL_spec (mat : Storage K) (size : Nat) (c : Nat → K) :
    (∀ i, i < size →
      solveL mat size c i = c i - ∑ j in Finset.range i, mat i j * solveL mat size c j) ∧
    (∀ i, size ≤ i → solveL mat size c i = c i) := by
  induction size with
  | zero => exact ⟨fun i hi => absurd hi (Nat.not_lt_zero i), fun i _ => rfl⟩
  | succ n ih =>
    have hstep : solveL mat (n + 1) c = Function.update (solveL mat n c) n
        (solveL mat n c n - ∑ j in Finset.range n, mat n j * solveL mat n c j) := by
      unfold solveL
      rw [List.range_succ, List.foldl_append, List.foldl_cons, List.foldl_nil]
    have hlt : ∀ j, j < n → solveL mat (n + 1) c j = solveL mat n c j := by
      intro j hj
      rw [hstep, Function.update_noteq (by omega)]
    refine ⟨fun i hi => ?_, fun i hi => ?_⟩
    · rcases Nat.lt_or_ge i n with h | h
      · rw [hlt i h, ih.1 i h]
        congr 1
        apply Finset.sum_congr rfl
        intro j hj
        rw [hlt j (by have := Finset.mem_range.mp hj; omega)]
      · have hin : i = n := by omega
        subst hin
        rw [hstep, Function.update_same, ih.2 i (le_refl i)]
        congr 1
        apply Finset.sum_congr rfl
        intro j hj
        rw [Function.update_noteq (by have := Finset.mem_range.mp hj; omega)]
    · rw [hstep, Function.update_noteq (by omega), ih.2 i (by omega)]

theorem solveUFrom_spec (mat : Storage K) (size : Nat) (z : Nat → K) (len a : Nat)
    (ha : a + len = size) :
    (∀ i, a ≤ i → i < size → solveUFrom mat size a len z i =
      z i - ∑ j in Finset.Ico (i + 1) size, mat j i * solveUFrom mat size a len z j) ∧
    (∀ i, i < a → solveUFrom mat size a len z i = z i) := by
  induction len generalizing a with
  | zero => exact ⟨fun i h1 h2 => by omega, fun i _ => rfl⟩
  | succ len ih =>
    have ih1 := ih (a + 1) (by omega)
    have hstep : solveUFrom mat size a (len + 1) z =
        Function.update (solveUFrom mat size (a + 1) len z) a
          (solveUFrom mat size (a + 1) len z a -
            ∑ j in Finset.Ico (a + 1) size, mat j a * solveUFrom mat size (a + 1) len z j) := by
      unfold solveUFrom
      rw [List.range'_succ, List.foldr_cons]
    have hgt : ∀ j, a < j → solveUFrom mat size a (len + 1) z j =
        solveUFrom mat size (a + 1) len z j := by
      intro j hj
      rw [hstep, Function.update_noteq (by omega)]
    refine ⟨fun i hi1 hi2 => ?_, fun i hi => ?_⟩
    · rcases Nat.eq_or_lt_of_le hi1 with h | h
      · subst h
        rw [hstep, Function.update_same, ih1.2 a (by omega)]
        congr 1
        apply Finset.sum_congr rfl
        intro j hj
        rw [Function.update_noteq (by have := Finset.mem_Ico.mp hj; omega)]
      · rw [hgt i h, ih1.1 i (by omega) hi2]
        congr 1
        apply Finset.sum_congr rfl
        intro j hj
        rw [hgt j (by have := Finset.mem_Ico.mp hj; omega)]
    · rw [hstep, Function.update_noteq (by omega), ih1.2 i (by omega)]

/-- Backward substitution solves the unit upper triangular system `Lᵀ w = z`. -/
theorem solveU_spec (mat : Storage K) (size : Nat) (z : Nat → K) (i : Nat) (hi : i < size) :
    solveU mat size z i =
      z i - ∑ j in Finset.Ico (i + 1) size, mat j i * solveU mat size z j := by
  have h := (solveUFrom_spec mat size z size 0 (by omega)).1 i (Nat.zero_le i) hi
  have he : solveU mat size z = solveUFrom mat size 0 size z := by
    unfold solveU solveUFrom
    rw [List.range_eq_range']
  rw [he]
  exact h

theorem DBL_MIN_pos : (0 : K) < DBL_MIN := by
  unfold DBL_MIN
  positivity

theorem factorisation_lower (A₀ : Storage K) (size : Nat) (s : LDLTState K)
    (hinv : LDLTInv A₀ size size s) (hpiv : ∀ k, k < size → s.mat k k ≠ 0)
    (i j : Nat) (hij : j ≤ i) (hi : i < size) :
    A₀ (permOf s.transpositions size i) (permOf s.transpositions size j) =
      ∑ m in Finset.range size, unitLower s.mat i m * (s.mat m m * unitLower s.mat j m) := by
  have hj : j < size := by omega
  rw [hinv.2.1 i j hj hij hi (Or.inr (hpiv j hj))]
  have hsub : Finset.range (j + 1) ⊆ Finset.range size := by
    intro m hm
    have := Finset.mem_range.mp hm
    exact Finset.mem_range.mpr (by omega)
  rw [← Finset.sum_subset hsub, Finset.sum_range_succ]
  · congr 1
    · apply Finset.sum_congr rfl
      intro m hm
      have hm1 := Finset.mem_range.mp hm
      unfold unitLower
      rw [if_pos (by omega), if_pos hm1]
    · unfold unitLower
      rw [if_neg (lt_irrefl j), if_pos rfl, mul_one]
      by_cases h : i = j
      · rw [if_pos h, if_neg (by omega), if_pos h, one_mul]
      · rw [if_neg h, if_pos (by omega)]
  · intro m _ hm
    have hm1 : ¬ m < j + 1 := fun h => hm (Finset.mem_range.mpr h)
    unfold unitLower
    rw [if_neg (by omega : ¬ m < j), if_neg (by omega : ¬ j = m), mul_zero, mul_zero]

/-- With every pivot different from zero, the stored factors reproduce the permuted input:
`Pᵀ A P = L D Lᵀ`. -/
theorem factorisation (A₀ : Storage K) (hA : ∀ i j, A₀ i j = A₀ j i) (size : Nat)
    (s : LDLTState K) (hinv : LDLTInv A₀ size size s) (hpiv : ∀ k, k < size → s.mat k k ≠ 0)
    (i j : Nat) (hi : i < size) (hj : j < size) :
    A₀ (permOf s.transpositions size i) (permOf s.transpositions size j) =
      ∑ m in Finset.range size, unitLower s.mat i m * (s.mat m m * unitLower s.mat j m) := by
  rcases Nat.le_total j i with h | h
  · exact factorisation_lower A₀ size s hinv hpiv i j h hi
  · rw [hA, factorisation_lower A₀ size s hinv hpiv j i h hj]
    apply Finset.sum_congr rfl
    intro m _
    ring

/-- The sum against a row of the unit lower factor. -/
theorem sum_unitLower_row (mat : Storage K) (size : Nat) (y : Nat → K) (i : Nat)
    (hi : i < size) :
    ∑ m in Finset.range size, unitLower mat i m * y m =
      (∑ m in Finset.range i, mat i m * y m) + y i := by
  have hsub : Finset.range (i + 1) ⊆ Finset.range size := by
    intro m hm
    have := Finset.mem_range.mp hm
    exact Finset.mem_range.mpr (by omega)
  rw [← Finset.sum_subset hsub, Finset.sum_range_succ]
  · congr 1
    · apply Finset.sum_congr rfl
      intro m hm
      have hm1 := Finset.mem_range.mp hm
      unfold unitLower
      rw [if_pos hm1]
    · unfold unitLower
      rw [if_neg (lt_irrefl i), if_pos rfl, one_mul]
  · intro m _ hm
    have hm1 : ¬ m < i + 1 := fun h => hm (Finset.mem_range.mpr h)
    unfold unitLower
    rw [if_neg (by omega : ¬ m < i), if_neg (by omega : ¬ i = m), zero_mul]

/-- The sum against a column of the unit lower factor. -/
theorem sum_unitLower_col (mat : Storage K) (size : Nat) (w : Nat → K) (m : Nat)
    (hm : m < size) :
    ∑ j in Finset.range size, unitLower mat j m * w j =
      w m + ∑ j in Finset.Ico (m + 1) size, mat j m * w j := by
  rw [Finset.range_eq_Ico, ← Finset.sum_Ico_consecutive _ (Nat.zero_le m) (le_of_lt hm),
    Finset.sum_eq_sum_Ico_succ_bot hm]
  have hz : ∑ j in Finset.Ico 0 m, unitLower mat j m * w j = 0 := by
    apply Finset.sum_eq_zero
    intro j hj
    have := (Finset.mem_Ico.mp hj).2
    unfold unitLower
    rw [if_neg (by omega : ¬ m < j), if_neg (by omega : ¬ j = m), zero_mul]
  rw [hz, zero_add]
  congr 1
  · unfold unitLower
    rw [if_neg (lt_irrefl m), if_pos rfl, one_mul]
  · apply Finset.sum_congr rfl
    intro j hj
    have := (Finset.mem_Ico.mp hj).1
    unfold unitLower
    rw [if_pos (by omega)]

/-- The solve stage inverts the factorisation: with the invariant established and every pivot
above the tolerance, the returned vector satisfies every equation of the input system. -/
theorem ldltSolveImpl_spec (A₀ : Storage K) (hA : ∀ i j, A₀ i j = A₀ j i) (size : Nat)
    (s : LDLTState K) (hinv : LDLTInv A₀ size size s)
    (hpiv : ∀ k, k < size → DBL_MIN < |s.mat k k|) (rhs : Nat → K) (i : Nat) (hi : i < size) :
    ∑ j in Finset.range size, A₀ i j * ldltSolveImpl s size rhs j = rhs i := by
  have hne : ∀ k, k < size → s.mat k k ≠ 0 := by
    intro k hk h0
    have := hpiv k hk
    rw [h0, abs_zero] at this
    exact absurd (lt_trans DBL_MIN_pos this) (lt_irrefl _)
  have hr : ∀ j, permOf s.transpositions size j < size ↔ j < size :=
    permOf_range s.transpositions size size (le_refl size) (fun j hj => (hinv.1 j hj).2)
  -- the stages of the solve
  obtain ⟨c, hc⟩ : ∃ c, c = applyTranspositions s.transpositions size rhs := ⟨_, rfl⟩
  obtain ⟨y, hy⟩ : ∃ y, y = solveL s.mat size c := ⟨_, rfl⟩
  obtain ⟨z, hz⟩ : ∃ z, z = solveD s.mat y := ⟨_, rfl⟩
  obtain ⟨w, hw⟩ : ∃ w, w = solveU s.mat size z := ⟨_, rfl⟩
  have hx : ∀ j, ldltSolveImpl s size rhs j = w ((permOf s.transpositions size)⁻¹ j) := by
    intro j
    rw [hw, hz, hy, hc]
    exact applyTranspositionsTranspose_eq s.transpositions size _ j
  have hL : ∀ a, a < size → ∑ m in Finset.range size, unitLower s.mat a m * y m = c a := by
    intro a ha
    rw [sum_unitLower_row s.mat size y a ha, hy, (solveL_spec s.mat size c).1 a ha]
    ring
  have hD : ∀ m, m < size → s.mat m m * z m = y m := by
    intro m hm
    rw [hz]
    unfold solveD
    rw [if_pos (hpiv m hm), mul_div_cancel₀ _ (hne m hm)]
  have hU : ∀ m, m < size → ∑ j in Finset.range size, unitLower s.mat j m * w j = z m := by
    intro m hm
    rw [sum_unitLower_col s.mat size w m hm, hw, solveU_spec s.mat size z m hm]
    ring
  have hperm : ∀ a, a < size →
      ∑ j in Finset.range size,
        A₀ (permOf s.transpositions size a) (permOf s.transpositions size j) * w j = c a := by
    intro a ha
    rw [← hL a ha]
    have h1 : ∀ j ∈ Finset.range size,
        A₀ (permOf s.transpositions size a) (permOf s.transpositions size j) * w j =
          ∑ m in Finset.range size,
            unitLower s.mat a m * (s.mat m m * (unitLower s.mat j m * w j)) := by
      intro j hj
      rw [factorisation A₀ hA size s hinv hne a j ha (Finset.mem_range.mp hj), Finset.sum_mul]
      apply Finset.sum_congr rfl
      intro m _
      ring
    rw [Finset.sum_congr rfl h1, Finset.sum_comm]
    apply Finset.sum_congr rfl
    intro m hm
    have hm1 := Finset.mem_range.mp hm
    rw [← Finset.mul_sum, ← Finset.mul_sum, hU m hm1, hD m hm1]
  have hreindex : ∑ j in Finset.range size, A₀ i j * ldltSolveImpl s size rhs j =
      ∑ j in Finset.range size, A₀ i (permOf s.transpositions size j) * w j := by
    symm
    apply Finset.sum_equiv (permOf s.transpositions size)
    · intro j
      rw [Finset.mem_range, Finset.mem_range]
      exact (hr j).symm
    · intro j _
      rw [hx]
      simp
  have hi1 : (permOf s.transpositions size)⁻¹ i < size := by
    rw [← hr]
    simpa using hi
  have := hperm _ hi1
  rw [hc, applyTranspositions_eq] at this
  simp only [Equiv.Perm.apply_inv_self] at this
  rw [hreindex]
  exact this

theorem toStorage_symm {n : Nat} (A : Matrix (Fin n) (Fin n) K) (hA : A.IsSymm) (i j : Nat) :
    toStorage A i j = toStorage A j i := by
  unfold toStorage
  by_cases h : i < n ∧ j < n
  · rw [dif_pos h, dif_pos ⟨h.2, h.1⟩]
    exact (hA.apply _ _).symm
  · rw [dif_neg h, dif_neg (fun h2 => h ⟨h2.2, h2.1⟩)]

theorem toStorage_apply {n : Nat} (A : Matrix (Fin n) (Fin n) K) (i j : Fin n) :
    toStorage A i.val j.val = A i j := by
  unfold toStorage
  rw [dif_pos ⟨i.isLt, j.isLt⟩]

theorem toColumn_apply {n : Nat} (b : Fin n → K) (i : Fin n) : toColumn b i.val = b i := by
  unfold toColumn
  rw [dif_pos i.isLt]

/-- The LDLT solve is an exact solve of a symmetric system whose pivots all exceed the
tolerance of the solve stage. -/
theorem mulVec_ldltSolve {n : Nat} (A : Matrix (Fin n) (Fin n) K) (hA : A.IsSymm)
    (hpiv : ∀ k : Fin n, DBL_MIN < |vectorD A k|) (b : Fin n → K) :
    A.mulVec (ldltSolve A b) = b := by
  have hne : 0 < n → (ldltUnblocked n (toStorage A)).mat 0 0 ≠ 0 := by
    intro hn h0
    have := hpiv ⟨0, hn⟩
    unfold vectorD at this
    rw [h0, abs_zero] at this
    exact absurd (lt_trans DBL_MIN_pos this) (lt_irrefl _)
  have hinv := ldltUnblocked_inv (toStorage A) (toStorage_symm A hA) n hne
  funext i
  have h := ldltSolveImpl_spec (toStorage A) (toStorage_symm A hA) n _ hinv
    (fun k hk => hpiv ⟨k, hk⟩) (toColumn b) i.val i.isLt
  rw [← Fin.sum_univ_eq_sum_range
    (fun j => toStorage A i.val j * ldltSolveImpl (ldltUnblocked n (toStorage A)) n
      (toColumn b) j) n, toColumn_apply] at h
  rw [← h]
  unfold Matrix.mulVec Matrix.dotProduct
  apply Finset.sum_congr rfl
  intro j _
  rw [toStorage_apply]
  rfl

theorem foldl_fixed_of_mem {α β : Type} (f : α → β → α) (a : α) (l : List β)
    (h : ∀ b, b ∈ l → f a b = a) : l.foldl f a = a := by
  induction l with
  | nil => rfl
  | cons b l ih =>
    rw [List.foldl_cons, h b (List.mem_cons_self b l)]
    exact ih (fun c hc => h c (List.mem_cons_of_mem b hc))

theorem foldr_fixed_of_mem {α β : Type} (f : β → α → α) (a : α) (l : List β)
    (h : ∀ b, b ∈ l → f b a = a) : l.foldr f a = a := by
  induction l with
  | nil => rfl
  | cons b l ih =>
    rw [List.foldr_cons, ih (fun c hc => h c (List.mem_cons_of_mem b hc))]
    exact h b (List.mem_cons_self b l)

theorem solveU_zero (mat : Storage K) (size : Nat) : solveU mat size (fun _ => 0) = fun _ => 0 := by
  unfold solveU
  apply foldr_fixed_of_mem
  intro i _
  funext a
  by_cases h : a = i
  · subst h
    simp
  · rw [Function.update_noteq h]

theorem applyTranspositionsTranspose_zero (tr : Nat → Nat) (size : Nat) :
    applyTranspositionsTranspose tr size (fun _ => (0 : K)) = fun _ => 0 := by
  funext i
  rw [applyTranspositionsTranspose_eq]

/-- When every pivot is at most the tolerance, the solve stage returns zero. -/
theorem ldltSolveImpl_of_small_pivots (s : LDLTState K) (size : Nat) (rhs : Nat → K)
    (h : ∀ i, ¬ DBL_MIN < |s.mat i i|) : ldltSolveImpl s size rhs = fun _ => 0 := by
  have hD : ∀ y : Nat → K, solveD s.mat y = fun _ => 0 := by
    intro y
    funext i
    unfold solveD
    rw [if_neg (h i)]
  unfold ldltSolveImpl
  simp only [hD, solveU_zero, applyTranspositionsTranspose_zero]

/-- On a diagonal of zeros the pivot search stays at `k`. -/
theorem indexOfBiggestInCorner_of_le (mat : Storage K) (size k : Nat)
    (h : ∀ i, k < i → i < size → |mat i i| ≤ |mat k k|) :
    indexOfBiggestInCorner mat size k = k := by
  unfold indexOfBiggestInCorner
  apply foldl_fixed_of_mem
  intro i hi
  rw [List.mem_range'_1] at hi
  rw [if_neg (not_lt.mpr (h i (by omega) (by omega)))]

/-- The factorisation of a matrix whose diagonal is zero stops at the first pivot and leaves
the storage unchanged. -/
theorem ldltUnblocked_of_diag_zero (mat : Storage K) (size : Nat) (hd : ∀ i, mat i i = 0) :
    ldltUnblocked size mat = ⟨mat, id⟩ := by
  have hp : indexOfBiggestInCorner mat size 0 = 0 :=
    indexOfBiggestInCorner_of_le mat size 0 (fun i _ _ => by rw [hd i, hd 0])
  have hT : applyTransposition mat size 0 0 = mat := by
    unfold applyTransposition
    rw [if_neg (fun h => h rfl)]
  unfold ldltUnblocked
  by_cases h1 : size ≤ 1
  · rw [if_pos h1]
  · rw [if_neg h1]
    have hs := ldltStep_mat_diag size ⟨mat, id⟩ 0 (by omega)
    simp only [Finset.range_zero, Finset.sum_empty, sub_zero] at hs
    rw [hp, hT, hd 0] at hs
    simp only [hs, abs_zero, lt_irrefl, if_false, hp, hT]

/-- The LDLT solve of a matrix whose diagonal is zero returns the zero vector, whatever the
off-diagonal entries and the right-hand side. -/
theorem ldltSolve_of_diag_zero {n : Nat} (A : Matrix (Fin n) (Fin n) K)
    (hd : ∀ i, A i i = 0) (b : Fin n → K) : ldltSolve A b = 0 := by
  have hd2 : ∀ i, toStorage A i i = 0 := by
    intro i
    unfold toStorage
    split_ifs with h
    · exact hd ⟨i, h.1⟩
    · rfl
  funext i
  unfold ldltSolve
  rw [ldltUnblocked_of_diag_zero (toStorage A) n hd2, ldltSolveImpl_of_small_pivots]
  · rfl
  · intro k
    show ¬ DBL_MIN < |toStorage A k k|
    rw [hd2 k, abs_zero]
    exact not_lt.mpr (le_of_lt DBL_MIN_pos)

/-- One iteration on a diagonal matrix whose entries do not increase in absolute value
changes nothing: no transposition, no update, and a column of zeros to scale. -/
theorem ldltStep_diagonal (mat : Storage K) (size k : Nat)
    (hoff : ∀ i j, i ≠ j → mat i j = 0)
    (hmono : ∀ i j, i < j → j < size → |mat j j| ≤ |mat i i|) :
    ldltStep size ⟨mat, id⟩ k = ⟨mat, id⟩ := by
  have hp : indexOfBiggestInCorner mat size k = k :=
    indexOfBiggestInCorner_of_le mat size k (fun i h1 h2 => hmono k i h1 h2)
  have hT : applyTransposition mat size k k = mat := by
    unfold applyTransposition
    rw [if_neg (fun h => h rfl)]
  have hU : updateColumn mat size k = mat := by
    unfold updateColumn
    by_cases h0 : 0 < k
    · rw [if_pos h0]
      funext i j
      by_cases hc : j = k ∧ k ≤ i ∧ i < size
      · rw [if_pos hc, hc.1]
        have hz : ∑ m in Finset.range k, mat i m * (mat m m * mat k m) = 0 := by
          apply Finset.sum_eq_zero
          intro m hm
          have := Finset.mem_range.mp hm
          rw [hoff k m (by omega), mul_zero, mul_zero]
        rw [hz, sub_zero]
      · rw [if_neg hc]
    · rw [if_neg h0]
  have hS : scaleColumn mat size k = mat := by
    unfold scaleColumn
    funext i j
    by_cases hc : j = k ∧ k < i ∧ i < size
    · rw [if_pos hc, hc.1, hoff i k (by omega), zero_div]
    · rw [if_neg hc]
  have htr : Function.update (id : Nat → Nat) k k = id := Function.update_eq_self k id
  unfold ldltStep
  simp only [hp, hT, hU, hS, htr, ite_self]

/-- The factorisation of such a diagonal matrix is the matrix itself, without
transpositions. -/
theorem ldltUnblocked_diagonal (mat : Storage K) (size : Nat)
    (hoff : ∀ i j, i ≠ j → mat i j = 0)
    (hmono : ∀ i j, i < j → j < size → |mat j j| ≤ |mat i i|) :
    ldltUnblocked size mat = ⟨mat, id⟩ := by
  have hp : indexOfBiggestInCorner mat size 0 = 0 :=
    indexOfBiggestInCorner_of_le mat size 0 (fun i h1 h2 => hmono 0 i h1 h2)
  have hT : applyTransposition mat size 0 0 = mat := by
    unfold applyTransposition
    rw [if_neg (fun h => h rfl)]
  unfold ldltUnblocked
  by_cases h1 : size ≤ 1
  · rw [if_pos h1]
  · rw [if_neg h1]
    simp only [ldltStep_diagonal mat size 0 hoff hmono, hp, hT]
    rw [foldl_fixed_of_mem (ldltStep size) ⟨mat, id⟩ _
      (fun k _ => ldltStep_diagonal mat size k hoff hmono)]
    exact ite_self _

/-- The pivots of a diagonal matrix whose entries do not increase in absolute value are its
diagonal entries. -/
theorem vectorD_diagonal {n : Nat} (d : Fin n → K)
    (hmono : ∀ i j : Fin n, i ≤ j → |d j| ≤ |d i|) (k : Fin n) :
    vectorD (Matrix.diagonal d) k = d k := by
  unfold vectorD
  rw [ldltUnblocked_diagonal]
  · show toStorage (Matrix.diagonal d) k.val k.val = d k
    rw [toStorage_apply, Matrix.diagonal_apply_eq]
  · intro i j hij
    unfold toStorage
    split_ifs with h
    · exact Matrix.diagonal_apply_ne _ (fun he => hij (congrArg Fin.val he))
    · rfl
  · intro i j hij hj
    have hi : i < n := by omega
    have e1 := toStorage_apply (Matrix.diagonal d) ⟨i, hi⟩ ⟨i, hi⟩
    have e2 := toStorage_apply (Matrix.diagonal d) ⟨j, hj⟩ ⟨j, hj⟩
    simp only [] at e1 e2
    rw [e1, e2, Matrix.diagonal_apply_eq, Matrix.diagonal_apply_eq]
    exact hmono ⟨i, hi⟩ ⟨j, hj⟩ (le_of_lt hij)

end step

end Eigen

namespace three

open Eigen

variable {K : Type} [LinearOrderedField K]

/-! ## The linear solver -/

/-- The threshold `1e-6` is positive. -/
theorem threshold_pos : (0 : K) < 1e-6 := by norm_num

/-- The determinant test has two outcomes. -/
theorem determinant_test_cases (isnan isinf : K → Bool) (d : K) :
    (|d| < 1e-6 ∨ isnan d = true ∨ isinf d = true) ∨
      (1e-6 ≤ |d| ∧ isnan d = false ∧ isinf d = false) := by
  rcases lt_or_le |d| 1e-6 with h | h
  · exact Or.inl (Or.inl h)
  · cases hn : isnan d
    · cases hi : isinf d
      · exact Or.inr ⟨h, rfl, rfl⟩
      · exact Or.inl (Or.inr (Or.inr rfl))
    · exact Or.inl (Or.inr (Or.inl rfl))

/-- The failure branch of `SolveLinearSystem`. -/
theorem SolveLinearSystem_of_fail (isnan isinf : K → Bool) {n : Nat}
    (A : Matrix (Fin n) (Fin n) K) (b : Fin n → K)
    (h : |determinant A| < 1e-6 ∨ isnan (determinant A) = true ∨
      isinf (determinant A) = true) :
    SolveLinearSystem isnan isinf A b = (false, VectorXd.zero6) := by
  simp [SolveLinearSystem, h]

/-- The failure branch of `SolveLinearSystem`, taken on a small determinant. -/
theorem SolveLinearSystem_of_lt (isnan isinf : K → Bool) {n : Nat}
    (A : Matrix (Fin n) (Fin n) K) (b : Fin n → K) (h : |determinant A| < 1e-6) :
    SolveLinearSystem isnan isinf A b = (false, VectorXd.zero6) :=
  SolveLinearSystem_of_fail isnan isinf A b (Or.inl h)

/-- The success branch of `SolveLinearSystem`. -/
theorem SolveLinearSystem_of_ok (isnan isinf : K → Bool) {n : Nat}
    (A : Matrix (Fin n) (Fin n) K) (b : Fin n → K)
    (h : 1e-6 ≤ |determinant A| ∧ isnan (determinant A) = false ∧
      isinf (determinant A) = false) :
    SolveLinearSystem isnan isinf A b = (true, VectorXd.ofFn (-(ldltSolve A b))) := by
  simp [SolveLinearSystem, not_lt.mpr h.1, h.2.1, h.2.2]

/-- The flag of `SolveLinearSystem` is `false` exactly when the determinant test fails. -/
theorem SolveLinearSystem_fst_eq_false_iff (isnan isinf : K → Bool) {n : Nat}
    (A : Matrix (Fin n) (Fin n) K) (b : Fin n → K) :
    (SolveLinearSystem isnan isinf A b).1 = false ↔
      (|determinant A| < 1e-6 ∨ isnan (determinant A) = true ∨
        isinf (determinant A) = true) := by
  rcases determinant_test_cases isnan isinf (determinant A) with hf | hok
  · rw [SolveLinearSystem_of_fail isnan isinf A b hf]
    exact ⟨fun _ => hf, fun _ => rfl⟩
  · rw [SolveLinearSystem_of_ok isnan isinf A b hok]
    constructor
    · intro h
      cases h
    · rintro (h | h | h)
      · exact absurd hok.1 (not_le.mpr h)
      · rw [hok.2.1] at h
        cases h
      · rw [hok.2.2] at h
        cases h

/-- The flag of `SolveLinearSystem` is `true` exactly when the determinant is finite and
at least `1e-6` in absolute value. -/
theorem SolveLinearSystem_fst_eq_true_iff (isnan isinf : K → Bool) {n : Nat}
    (A : Matrix (Fin n) (Fin n) K) (b : Fin n → K) :
    (SolveLinearSystem isnan isinf A b).1 = true ↔
      (1e-6 ≤ |determinant A| ∧ isnan (determinant A) = false ∧
        isinf (determinant A) = false) := by
  rcases determinant_test_cases isnan isinf (determinant A) with hf | hok
  · rw [SolveLinearSystem_of_fail isnan isinf A b hf]
    constructor
    · intro h
      cases h
    · rintro ⟨h1, h2, h3⟩
      rcases hf with h | h | h
      · exact absurd h1 (not_le.mpr h)
      · rw [h2] at h
        cases h
      · rw [h3] at h
        cases h
  · rw [SolveLinearSystem_of_ok isnan isinf A b hok]
    exact ⟨fun _ => hok, fun _ => rfl⟩

/-- A determinant that passes the test is non-zero. -/
theorem det_ne_zero_of_le {n : Nat} (A : Matrix (Fin n) (Fin n) K)
    (h : 1e-6 ≤ |determinant A|) : determinant A ≠ 0 := by
  intro h0
  rw [h0, abs_zero] at h
  exact absurd h (not_le.mpr threshold_pos)

/-- The zero matrix of a positive size `6 (k + 1)` has determinant zero. -/
theorem det_zero_pos_size (k : Nat) :
    determinant (0 : Matrix (Fin (6 * (k + 1))) (Fin (6 * (k + 1))) K) = 0 :=
  Matrix.det_zero ⟨⟨0, by omega⟩⟩

/-- The identity matrix has determinant one. -/
theorem determinant_one (n : Nat) : determinant (1 : Matrix (Fin n) (Fin n) K) = 1 := by
  rw [determinant, Matrix.det_one]

/-- A solution of a system with non-zero determinant is the product by the inverse. -/
theorem eq_inv_mulVec_of_mulVec_eq {n : Nat} (A : Matrix (Fin n) (Fin n) K)
    (x b : Fin n → K) (hdet : determinant A ≠ 0) (h : A.mulVec x = b) :
    x = A⁻¹.mulVec b := by
  have hu : IsUnit A.det := isUnit_iff_ne_zero.mpr hdet
  rw [← h, Matrix.mulVec_mulVec, Matrix.nonsing_inv_mul A hu, Matrix.one_mulVec]

theorem sampleJTJ_isSymm : sampleJTJ.IsSymm := Matrix.isSymm_diagonal _

theorem sampleJTJ_det : determinant sampleJTJ = 48 := by
  rw [determinant, sampleJTJ, Matrix.det_diagonal]
  simp [Fin.prod_univ_succ]
  norm_num

theorem sampleJTJ_det_le : 1e-6 ≤ |determinant sampleJTJ| := by
  rw [sampleJTJ_det]; norm_num

theorem singularJTJ_det_lt : |determinant singularJTJ| < 1e-6 := by
  rw [determinant, singularJTJ, Matrix.det_diagonal]
  simp [Fin.prod_univ_succ]
  exact threshold_pos

theorem orderedJTJ_isSymm : orderedJTJ.IsSymm := Matrix.isSymm_diagonal _

theorem orderedJTJ_det : determinant orderedJTJ = 48 := by
  rw [determinant, orderedJTJ, Matrix.det_diagonal]
  simp [Fin.prod_univ_succ]
  norm_num

theorem orderedJTJ_det_le : 1e-6 ≤ |determinant orderedJTJ| := by
  rw [orderedJTJ_det]; norm_num

/-- The pivots of `diag (4, 3, 2, 2, 1, 1)` are its diagonal entries, all above the
tolerance of the solve. -/
theorem orderedJTJ_pivots (k : Fin 6) : DBL_MIN < |vectorD orderedJTJ k| := by
  have hmono : ∀ i j : Fin 6, i ≤ j →
      |(![4, 3, 2, 2, 1, 1] : Fin 6 → ℚ) j| ≤ |(![4, 3, 2, 2, 1, 1] : Fin 6 → ℚ) i| := by
    intro i j hij
    fin_cases i <;> fin_cases j <;> first
      | (norm_num [Matrix.vecHead, Matrix.vecTail]; done)
      | exact absurd hij (by decide)
  rw [orderedJTJ, vectorD_diagonal _ hmono k]
  have h1 : (DBL_MIN : ℚ) < 1 := by
    unfold DBL_MIN
    norm_num
  fin_cases k <;>
    exact lt_of_lt_of_le h1 (by norm_num [Matrix.vecHead, Matrix.vecTail])

/-- One finite `double` is not an overflow. -/
theorem isinfOverflow_of_le_one (x : K) (h : |x| ≤ 1) : isinfOverflow x = false := by
  unfold isinfOverflow
  apply decide_eq_false
  have h1 : (1 : K) ≤ DBL_MAX := by
    unfold DBL_MAX
    norm_num
  exact not_lt.mpr (le_trans h h1)

theorem isinfOverflow_48 : isinfOverflow (48 : ℚ) = false := by
  unfold isinfOverflow
  apply decide_eq_false
  unfold DBL_MAX
  norm_num

theorem swapJTJ_isSymm : swapJTJ.IsSymm := by
  ext i j
  fin_cases i <;> fin_cases j <;> rfl

theorem swapJTJ_diag (i : Fin 6) : swapJTJ i i = 0 := by
  fin_cases i <;> rfl

/-- The matrix `swapJTJ` is the matrix of the permutation `(0 1)(2 3)(4 5)`. -/
theorem swapJTJ_eq_permutation :
    swapJTJ = (Equiv.toPEquiv
      (Equiv.swap (0 : Fin 6) 1 * Equiv.swap 2 3 * Equiv.swap 4 5)).toMatrix := by
  ext i j
  fin_cases i <;> fin_cases j <;> rfl

/-- The determinant of `swapJTJ` is the signature of an odd permutation. -/
theorem swapJTJ_det : determinant swapJTJ = -1 := by
  rw [determinant, swapJTJ_eq_permutation, Matrix.det_permutation, Equiv.Perm.sign_mul,
    Equiv.Perm.sign_mul, Equiv.Perm.sign_swap (by decide), Equiv.Perm.sign_swap (by decide),
    Equiv.Perm.sign_swap (by decide)]
  norm_num

theorem swapJTJ_det_le : 1e-6 ≤ |determinant swapJTJ| := by
  rw [swapJTJ_det]; norm_num

/-! ## The orchestrator -/

/-- The first block of six of a six-vector is the vector itself. -/
theorem block6_ofFn (x : Fin 6 → K) : (VectorXd.ofFn x).block6 0 = x := by
  funext k
  have hk : 0 + k.val < 6 := by omega
  simp [VectorXd.block6, VectorXd.ofFn, hk]

/-- The shape test of the orchestrator is false on arguments of the declared types. -/
theorem shape_check_false {F : Type} (JTJ : Matrix6d F) (JTr : Vector6d F) :
    ¬ (rows JTJ ≠ vrows JTr ∨ cols JTJ % 6 ≠ 0) := by
  simp [rows, vrows, cols]

/-- The loop of `push_back` builds the list of the images, in index order. -/
theorem foldl_push_back_eq_map {α β : Type} (f : α → β) (l : List α) (init : List β) :
    l.foldl (fun out i => out ++ [f i]) init = init ++ l.map f := by
  induction l generalizing init with
  | nil => simp
  | cons a l ih => simp [ih]

/-- The body of the orchestrator when the shape test fails. -/
theorem Body_of_shape (cos sin : K → K) (isnan isinf : K → Bool) {n m : Nat}
    (JTJ : Matrix (Fin n) (Fin n) K) (JTr : Fin m → K)
    (h : rows JTJ ≠ vrows JTr ∨ cols JTJ % 6 ≠ 0) :
    SolveJacobianSystemAndObtainExtrinsicArrayBody cos sin isnan isinf JTJ JTr =
      (false, []) := by
  unfold SolveJacobianSystemAndObtainExtrinsicArrayBody
  exact dif_pos h

/-- The body of the orchestrator when the shape test is passed. -/
theorem Body_of_wellshaped (cos sin : K → K) (isnan isinf : K → Bool) {n : Nat}
    (JTJ : Matrix (Fin n) (Fin n) K) (JTr : Fin n → K) (h6 : n % 6 = 0) :
    SolveJacobianSystemAndObtainExtrinsicArrayBody cos sin isnan isinf JTJ JTr =
      if (SolveLinearSystem isnan isinf JTJ JTr).1 = true then
        (true, (List.range ((SolveLinearSystem isnan isinf JTJ JTr).2.rows / 6)).map
          (fun i => TransformVector6dToMatrix4d cos sin
            ((SolveLinearSystem isnan isinf JTJ JTr).2.block6 (i * 6))))
      else (false, []) := by
  have hs : ¬ (rows JTJ ≠ vrows JTr ∨ cols JTJ % 6 ≠ 0) := by
    simp [rows, vrows, cols, h6]
  unfold SolveJacobianSystemAndObtainExtrinsicArrayBody
  rw [dif_neg hs]
  simp only [Fin.cast_eq_self, foldl_push_back_eq_map, List.nil_append]
  by_cases h : (SolveLinearSystem isnan isinf JTJ JTr).1 = true
  · rw [if_pos h, if_pos h, h]
  · rw [if_neg h, if_neg h]

/-- The orchestrator on a system that fails the determinant test. -/
theorem SolveJacobianSystemAndObtainExtrinsicArray_of_fail (cos sin : K → K)
    (isnan isinf : K → Bool) (JTJ : Matrix6d K) (JTr : Vector6d K)
    (h : |determinant JTJ| < 1e-6 ∨ isnan (determinant JTJ) = true ∨
      isinf (determinant JTJ) = true) :
    SolveJacobianSystemAndObtainExtrinsicArray cos sin isnan isinf JTJ JTr = (false, []) := by
  unfold SolveJacobianSystemAndObtainExtrinsicArray
  rw [Body_of_wellshaped cos sin isnan isinf JTJ JTr rfl,
    SolveLinearSystem_of_fail isnan isinf JTJ JTr h]
  rfl

/-- The orchestrator on a degenerate system. -/
theorem SolveJacobianSystemAndObtainExtrinsicArray_of_lt (cos sin : K → K)
    (isnan isinf : K → Bool) (JTJ : Matrix6d K) (JTr : Vector6d K)
    (h : |determinant JTJ| < 1e-6) :
    SolveJacobianSystemAndObtainExtrinsicArray cos sin isnan isinf JTJ JTr = (false, []) :=
  SolveJacobianSystemAndObtainExtrinsicArray_of_fail cos sin isnan isinf JTJ JTr (Or.inl h)

/-- The orchestrator on a system that passes the determinant test. -/
theorem SolveJacobianSystemAndObtainExtrinsicArray_of_ok (cos sin : K → K)
    (isnan isinf : K → Bool) (JTJ : Matrix6d K) (JTr : Vector6d K)
    (h : 1e-6 ≤ |determinant JTJ| ∧ isnan (determinant JTJ) = false ∧
      isinf (determinant JTJ) = false) :
    SolveJacobianSystemAndObtainExtrinsicArray cos sin isnan isinf JTJ JTr =
      (true, [TransformVector6dToMatrix4d cos sin (-(ldltSolve JTJ JTr))]) := by
  unfold SolveJacobianSystemAndObtainExtrinsicArray
  rw [Body_of_wellshaped cos sin isnan isinf JTJ JTr rfl,
    SolveLinearSystem_of_ok isnan isinf JTJ JTr h]
  have hx : (VectorXd.ofFn (-(ldltSolve JTJ JTr))).rows = 6 := rfl
  simp [hx, List.range_succ, block6_ofFn]

/-- The flag returned by the body of the orchestrator, in terms of the two tests. -/
theorem Body_flag_iff (cos sin : K → K) (isnan isinf : K → Bool)
    {n m : Nat} (JTJ : Matrix (Fin n) (Fin n) K) (JTr : Fin m → K) :
    ((SolveJacobianSystemAndObtainExtrinsicArrayBody cos sin isnan isinf JTJ JTr).1 = false ↔
      (rows JTJ ≠ vrows JTr ∨ cols JTJ % 6 ≠ 0) ∨
      (|determinant JTJ| < 1e-6 ∨ isnan (determinant JTJ) = true ∨
        isinf (determinant JTJ) = true)) ∧
    ((SolveJacobianSystemAndObtainExtrinsicArrayBody cos sin isnan isinf JTJ JTr).1 = true ↔
      (rows JTJ = vrows JTr ∧ cols JTJ % 6 = 0) ∧
      (1e-6 ≤ |determinant JTJ| ∧ isnan (determinant JTJ) = false ∧
        isinf (determinant JTJ) = false)) := by
  by_cases hs : rows JTJ ≠ vrows JTr ∨ cols JTJ % 6 ≠ 0
  · rw [Body_of_shape cos sin isnan isinf JTJ JTr hs]
    refine ⟨⟨fun _ => Or.inl hs, fun _ => rfl⟩, ⟨fun h => (by cases h), fun h => ?_⟩⟩
    rcases hs with h1 | h1
    · exact absurd h.1.1 h1
    · exact absurd h.1.2 h1
  · have hnm : n = m := Decidable.of_not_not (fun hne => hs (Or.inl hne))
    subst hnm
    have h6 : n % 6 = 0 := Decidable.of_not_not (fun hne => hs (Or.inr hne))
    have hshape : rows JTJ = vrows JTr ∧ cols JTJ % 6 = 0 := ⟨rfl, h6⟩
    rw [Body_of_wellshaped cos sin isnan isinf JTJ JTr h6]
    rcases determinant_test_cases isnan isinf (determinant JTJ) with hf | hok
    · have hflag := (SolveLinearSystem_fst_eq_false_iff isnan isinf JTJ JTr).mpr hf
      rw [if_neg (by rw [hflag]; exact Bool.false_ne_true)]
      refine ⟨⟨fun _ => Or.inr hf, fun _ => rfl⟩, ⟨fun h => (by cases h), fun h => ?_⟩⟩
      have := (SolveLinearSystem_fst_eq_true_iff isnan isinf JTJ JTr).mpr h.2
      rw [hflag] at this
      cases this
    · have hflag := (SolveLinearSystem_fst_eq_true_iff isnan isinf JTJ JTr).mpr hok
      rw [if_pos hflag]
      refine ⟨⟨fun h => (by cases h), fun h => ?_⟩, ⟨fun _ => ⟨hshape, hok⟩, fun _ => rfl⟩⟩
      rcases h with h | h
      · exact absurd h hs
      · have := (SolveLinearSystem_fst_eq_false_iff isnan isinf JTJ JTr).mpr h
        rw [hflag] at this
        cases this

/-! ## Quaternions and rotation matrices -/

/-- The squared norm is multiplicative. -/
theorem Quaterniond.squaredNorm_mul (p q : Quaterniond K) :
    (p.mul q).squaredNorm = p.squaredNorm * q.squaredNorm := by
  simp only [Quaterniond.squaredNorm, Quaterniond.mul]
  ring

/-- The homogeneous rotation matrix is multiplicative. -/
theorem Quaterniond.homogeneousMatrix_mul (p q : Quaterniond K) :
    (p.mul q).homogeneousMatrix = p.homogeneousMatrix * q.homogeneousMatrix := by
  ext i j
  fin_cases i <;> fin_cases j <;>
    simp [Quaterniond.homogeneousMatrix, Quaterniond.mul, Matrix.mul_apply,
      Fin.sum_univ_three, Matrix.vecHead, Matrix.vecTail] <;> ring

/-- On unit quaternions Eigen's rotation matrix is the homogeneous one. -/
theorem Quaterniond.matrix_eq_homogeneousMatrix (q : Quaterniond K)
    (h : q.squaredNorm = 1) : q.matrix = q.homogeneousMatrix := by
  simp only [Quaterniond.squaredNorm] at h
  ext i j
  fin_cases i <;> fin_cases j <;>
    simp [Quaterniond.homogeneousMatrix, Quaterniond.matrix, Matrix.vecHead,
      Matrix.vecTail] <;>
    first
    | ring1
    | linear_combination (-1 : K) * h


/-- On unit quaternions Eigen's rotation matrix is multiplicative. -/
theorem Quaterniond.matrix_mul (p q : Quaterniond K) (hp : p.squaredNorm = 1)
    (hq : q.squaredNorm = 1) : (p.mul q).matrix = p.matrix * q.matrix := by
  rw [Quaterniond.matrix_eq_homogeneousMatrix p hp,
    Quaterniond.matrix_eq_homogeneousMatrix q hq, ← Quaterniond.homogeneousMatrix_mul,
    Quaterniond.matrix_eq_homogeneousMatrix]
  rw [Quaterniond.squaredNorm_mul, hp, hq, mul_one]

theorem toQuaternion_squaredNorm_UnitX (cos sin : K → K) (h : IsTrig cos sin) (a : K) :
    ((AngleAxisd.mk a UnitX).toQuaternion cos sin).squaredNorm = 1 := by
  have := h.1 (0.5 * a)
  simp [AngleAxisd.toQuaternion, Quaterniond.squaredNorm, UnitX]
  linear_combination this

theorem toQuaternion_squaredNorm_UnitY (cos sin : K → K) (h : IsTrig cos sin) (a : K) :
    ((AngleAxisd.mk a UnitY).toQuaternion cos sin).squaredNorm = 1 := by
  have := h.1 (0.5 * a)
  simp [AngleAxisd.toQuaternion, Quaterniond.squaredNorm, UnitY]
  linear_combination this

theorem toQuaternion_squaredNorm_UnitZ (cos sin : K → K) (h : IsTrig cos sin) (a : K) :
    ((AngleAxisd.mk a UnitZ).toQuaternion cos sin).squaredNorm = 1 := by
  have := h.1 (0.5 * a)
  simp [AngleAxisd.toQuaternion, Quaterniond.squaredNorm, UnitZ]
  linear_combination this

theorem toQuaternion_matrix_UnitX (cos sin : K → K) (h : IsTrig cos sin) (a : K) :
    ((AngleAxisd.mk a UnitX).toQuaternion cos sin).matrix = Rx cos sin a := by
  rw [Quaterniond.matrix_eq_homogeneousMatrix _ (toQuaternion_squaredNorm_UnitX cos sin h a)]
  have h1 := h.1 (0.5 * a)
  have h2 := h.2.1 a
  have h3 := h.2.2 a
  ext i j
  fin_cases i <;> fin_cases j <;>
    simp [Quaterniond.homogeneousMatrix, AngleAxisd.toQuaternion, UnitX, Rx, Matrix.vecHead,
      Matrix.vecTail] <;>
    first
    | linear_combination h1
    | linear_combination h2
    | linear_combination h3


theorem toQuaternion_matrix_UnitY (cos sin : K → K) (h : IsTrig cos sin) (a : K) :
    ((AngleAxisd.mk a UnitY).toQuaternion cos sin).matrix = Ry cos sin a := by
  rw [Quaterniond.matrix_eq_homogeneousMatrix _ (toQuaternion_squaredNorm_UnitY cos sin h a)]
  have h1 := h.1 (0.5 * a)
  have h2 := h.2.1 a
  have h3 := h.2.2 a
  ext i j
  fin_cases i <;> fin_cases j <;>
    simp [Quaterniond.homogeneousMatrix, AngleAxisd.toQuaternion, UnitY, Ry, Matrix.vecHead,
      Matrix.vecTail] <;>
    first
    | linear_combination h1
    | linear_combination h2
    | linear_combination h3

theorem toQuaternion_matrix_UnitZ (cos sin : K → K) (h : IsTrig cos sin) (a : K) :
    ((AngleAxisd.mk a UnitZ).toQuaternion cos sin).matrix = Rz cos sin a := by
  rw [Quaterniond.matrix_eq_homogeneousMatrix _ (toQuaternion_squaredNorm_UnitZ cos sin h a)]
  have h1 := h.1 (0.5 * a)
  have h2 := h.2.1 a
  have h3 := h.2.2 a
  ext i j
  fin_cases i <;> fin_cases j <;>
    simp [Quaterniond.homogeneousMatrix, AngleAxisd.toQuaternion, UnitZ, Rz, Matrix.vecHead,
      Matrix.vecTail] <;>
    first
    | linear_combination h1
    | linear_combination h2
    | linear_combination h3

/-! ## The claims -/

/-- C1 (counterexample): the matrix `swapJTJ` is symmetric with determinant `-1`, so it
passes the determinant test, yet for the right-hand side `(1, ..., 6)` `SolveLinearSystem`
returns `true` with the zero vector, which does not satisfy `A x = -b`: every diagonal
entry is zero, the pivot search of the LDLT factorisation finds no pivot, and the solve
stage puts zero for every component. -/
theorem C1_zero_diagonal_system_is_not_solved :
    swapJTJ.IsSymm ∧ determinant swapJTJ = -1 ∧ 1e-6 ≤ |determinant swapJTJ| ∧
    isinfOverflow (determinant swapJTJ) = false ∧
    SolveLinearSystem (fun _ => false) isinfOverflow swapJTJ sampleJTr =
      (true, VectorXd.ofFn (0 : Vector6d ℚ)) ∧
    swapJTJ.mulVec (0 : Vector6d ℚ) ≠ -sampleJTr := by
  have hinf : isinfOverflow (determinant swapJTJ) = false :=
    isinfOverflow_of_le_one _ (by rw [swapJTJ_det]; norm_num)
  refine ⟨swapJTJ_isSymm, swapJTJ_det, swapJTJ_det_le, hinf, ?_, ?_⟩
  · rw [SolveLinearSystem_of_ok _ _ swapJTJ sampleJTr ⟨swapJTJ_det_le, rfl, hinf⟩,
      ldltSolve_of_diag_zero swapJTJ swapJTJ_diag, neg_zero]
  · intro h
    have h0 := congrFun h 0
    rw [Matrix.mulVec_zero] at h0
    revert h0
    simp [sampleJTr]

/-- C1 (amended): for a symmetric 6 x 6 matrix `A` whose determinant is finite with
`|det A| ≥ 1e-6` and whose LDLT pivots all exceed the tolerance of the solve in absolute
value, and for any `b`, `SolveLinearSystem A b` returns `true` together with a six-vector
`x` that is the negated solution, `x = -(A⁻¹ b)`, so that `A x = -b`. -/
theorem C1_solve_returns_negated_solution (isnan isinf : K → Bool) (A : Matrix6d K)
    (b : Vector6d K) (hA : A.IsSymm) (hdet : 1e-6 ≤ |determinant A|)
    (hnan : isnan (determinant A) = false) (hinf : isinf (determinant A) = false)
    (hpiv : ∀ k : Fin 6, DBL_MIN < |vectorD A k|) :
    ∃ x : Vector6d K, SolveLinearSystem isnan isinf A b = (true, VectorXd.ofFn x) ∧
      x = -(A⁻¹.mulVec b) ∧ A.mulVec x = -b := by
  have hsol : A.mulVec (-(ldltSolve A b)) = -b := by
    rw [Matrix.mulVec_neg, mulVec_ldltSolve A hA hpiv b]
  refine ⟨-(ldltSolve A b), SolveLinearSystem_of_ok isnan isinf A b ⟨hdet, hnan, hinf⟩, ?_,
    hsol⟩
  rw [eq_inv_mulVec_of_mulVec_eq A _ _ (det_ne_zero_of_le A hdet) hsol, Matrix.mulVec_neg]

/-- Witness for C1 (amended): the symmetric matrix `diag (4, 3, 2, 2, 1, 1)` (determinant
48, pivots 4, 3, 2, 2, 1, 1) over the rationals with right-hand side `(1, 2, 3, 4, 5, 6)`,
`std::isinf` modelled by overflow. -/
theorem C1_solve_returns_negated_solution_witness :
    orderedJTJ.IsSymm ∧ 1e-6 ≤ |determinant orderedJTJ| ∧
    isinfOverflow (determinant orderedJTJ) = false ∧
    (∀ k : Fin 6, DBL_MIN < |vectorD orderedJTJ k|) ∧
    ∃ x : Vector6d ℚ,
      SolveLinearSystem (fun _ => false) isinfOverflow orderedJTJ sampleJTr =
        (true, VectorXd.ofFn x) ∧
      orderedJTJ.mulVec x = -sampleJTr :=
  have hinf : isinfOverflow (determinant orderedJTJ) = false := by
    rw [orderedJTJ_det]
    exact isinfOverflow_48
  ⟨orderedJTJ_isSymm, orderedJTJ_det_le, hinf, orderedJTJ_pivots,
    (C1_solve_returns_negated_solution (fun _ => false) isinfOverflow orderedJTJ sampleJTr
      orderedJTJ_isSymm orderedJTJ_det_le rfl hinf orderedJTJ_pivots).imp
        fun _ h => ⟨h.1, h.2.2⟩⟩

/-- C2: whenever `|det A| < 1e-6`, `SolveLinearSystem` reports `solvable = false` (any
size, any right-hand side) and `SolveJacobianSystemAndObtainExtrinsicArray` returns
`(false, [])`; the zero matrix of every positive size `6 (k + 1)` is such a matrix. -/
theorem C2_degenerate_system_is_unsolvable (isnan isinf : K → Bool) {n : Nat}
    (A : Matrix (Fin n) (Fin n) K)
    (b : Fin n → K) (cos sin : K → K) (JTJ : Matrix6d K) (JTr : Vector6d K)
    (hA : |determinant A| < 1e-6) (hJ : |determinant JTJ| < 1e-6) :
    (SolveLinearSystem isnan isinf A b).1 = false ∧
    SolveJacobianSystemAndObtainExtrinsicArray cos sin isnan isinf JTJ JTr = (false, []) ∧
    ∀ (k : Nat) (b0 : Fin (6 * (k + 1)) → K),
      (SolveLinearSystem isnan isinf
        (0 : Matrix (Fin (6 * (k + 1))) (Fin (6 * (k + 1))) K) b0).1 = false := by
  refine ⟨?_, SolveJacobianSystemAndObtainExtrinsicArray_of_lt cos sin isnan isinf JTJ JTr hJ,
    ?_⟩
  · rw [SolveLinearSystem_of_lt isnan isinf A b hA]
  · intro k b0
    rw [SolveLinearSystem_of_lt]
    rw [det_zero_pos_size, abs_zero]
    exact threshold_pos

/-- Witness for C2: the singular matrix `diag (1, 1, 1, 1, 1, 0)` over the rationals,
passed to both functions. -/
theorem C2_degenerate_system_is_unsolvable_witness :
    |determinant singularJTJ| < 1e-6 ∧
    (SolveLinearSystem (fun _ => false) isinfOverflow singularJTJ sampleJTr).1 = false ∧
    SolveJacobianSystemAndObtainExtrinsicArray (fun _ => 1) (fun _ => 0) (fun _ => false)
      isinfOverflow singularJTJ sampleJTr = (false, []) :=
  ⟨singularJTJ_det_lt,
    (C2_degenerate_system_is_unsolvable (fun _ => false) isinfOverflow singularJTJ sampleJTr
      (fun _ => 1) (fun _ => 0) singularJTJ sampleJTr singularJTJ_det_lt
      singularJTJ_det_lt).1,
    (C2_degenerate_system_is_unsolvable (fun _ => false) isinfOverflow singularJTJ sampleJTr
      (fun _ => 1) (fun _ => 0) singularJTJ sampleJTr singularJTJ_det_lt
      singularJTJ_det_lt).2.1⟩

/-- The orchestrator in terms of the flag of `SolveLinearSystem`. -/
theorem SolveJacobianSystemAndObtainExtrinsicArray_eq (cos sin : K → K)
    (isnan isinf : K → Bool) (JTJ : Matrix6d K) (JTr : Vector6d K) :
    SolveJacobianSystemAndObtainExtrinsicArray cos sin isnan isinf JTJ JTr =
      if (SolveLinearSystem isnan isinf JTJ JTr).1 = true then
        (true, [TransformVector6dToMatrix4d cos sin (-(ldltSolve JTJ JTr))])
      else (false, []) := by
  rcases determinant_test_cases isnan isinf (determinant JTJ) with h | h
  · rw [SolveJacobianSystemAndObtainExtrinsicArray_of_fail cos sin isnan isinf JTJ JTr h,
      SolveLinearSystem_of_fail isnan isinf JTJ JTr h]
    rfl
  · rw [SolveJacobianSystemAndObtainExtrinsicArray_of_ok cos sin isnan isinf JTJ JTr h,
      SolveLinearSystem_of_ok isnan isinf JTJ JTr h]
    rfl

/-- C3: when the run-time shapes violate `rows(JTJ) = rows(JTr)` or `cols(JTJ) % 6 = 0`,
the guard of lines 86-89 makes the body of `SolveJacobianSystemAndObtainExtrinsicArray`
return `(false, [])`, whatever the entries, the determinant test and the solver would
give. -/
theorem C3_shape_violation_returns_false_and_empty (cos sin : K → K)
    (isnan isinf : K → Bool) {n m : Nat} (JTJ : Matrix (Fin n) (Fin n) K) (JTr : Fin m → K)
    (h : rows JTJ ≠ vrows JTr ∨ cols JTJ % 6 ≠ 0) :
    SolveJacobianSystemAndObtainExtrinsicArrayBody cos sin isnan isinf JTJ JTr =
      (false, []) :=
  Body_of_shape cos sin isnan isinf JTJ JTr h

/-- Witness for C3: the solvable 6 x 6 system matrix `diag (1, 2, 3, 1, 2, 4)` with a
right-hand side of five rows. -/
theorem C3_shape_violation_returns_false_and_empty_witness :
    (rows sampleJTJ ≠ vrows (![1, 2, 3, 4, 5] : Fin 5 → ℚ) ∨ cols sampleJTJ % 6 ≠ 0) ∧
    SolveJacobianSystemAndObtainExtrinsicArrayBody (fun _ => 1) (fun _ => 0)
      (fun _ => false) isinfOverflow sampleJTJ (![1, 2, 3, 4, 5] : Fin 5 → ℚ) =
        (false, []) :=
  have h : rows sampleJTJ ≠ vrows (![1, 2, 3, 4, 5] : Fin 5 → ℚ) ∨ cols sampleJTJ % 6 ≠ 0 :=
    Or.inl (by decide)
  ⟨h, C3_shape_violation_returns_false_and_empty (fun _ => 1) (fun _ => 0) (fun _ => false)
    isinfOverflow sampleJTJ _ h⟩

/-- C4: the body of `SolveJacobianSystemAndObtainExtrinsicArray` returns
`solvable = false` if and only if the shape test fails or the determinant is degenerate
(`|det| < 1e-6`, NaN or infinite); it returns `solvable = true` if and only if the shape is
accepted and the determinant is finite with `|det| ≥ 1e-6`. -/
theorem C4_exactly_two_failure_kinds (cos sin : K → K) (isnan isinf : K → Bool)
    {n m : Nat} (JTJ : Matrix (Fin n) (Fin n) K) (JTr : Fin m → K) :
    ((SolveJacobianSystemAndObtainExtrinsicArrayBody cos sin isnan isinf JTJ JTr).1 = false ↔
      (rows JTJ ≠ vrows JTr ∨ cols JTJ % 6 ≠ 0) ∨
      (|determinant JTJ| < 1e-6 ∨ isnan (determinant JTJ) = true ∨
        isinf (determinant JTJ) = true)) ∧
    ((SolveJacobianSystemAndObtainExtrinsicArrayBody cos sin isnan isinf JTJ JTr).1 = true ↔
      (rows JTJ = vrows JTr ∧ cols JTJ % 6 = 0) ∧
      (1e-6 ≤ |determinant JTJ| ∧ isnan (determinant JTJ) = false ∧
        isinf (determinant JTJ) = false)) :=
  Body_flag_iff cos sin isnan isinf JTJ JTr

/-- C5: the sequence returned by `SolveJacobianSystemAndObtainExtrinsicArray` for a system
of size `n = rows(JTJ)` has exactly `n / 6` transforms when the flag is `true` and no
transform when the flag is `false`. -/
theorem C5_no_partial_success (cos sin : K → K) (isnan isinf : K → Bool) (JTJ : Matrix6d K)
    (JTr : Vector6d K) :
    (SolveJacobianSystemAndObtainExtrinsicArray cos sin isnan isinf JTJ JTr).2.length =
      if (SolveJacobianSystemAndObtainExtrinsicArray cos sin isnan isinf JTJ JTr).1 = true
      then rows JTJ / 6
      else 0 := by
  rcases determinant_test_cases isnan isinf (determinant JTJ) with h | h
  · rw [SolveJacobianSystemAndObtainExtrinsicArray_of_fail cos sin isnan isinf JTJ JTr h]
    simp
  · rw [SolveJacobianSystemAndObtainExtrinsicArray_of_ok cos sin isnan isinf JTJ JTr h]
    simp [rows]

/-- C6: when the body of `SolveJacobianSystemAndObtainExtrinsicArray` succeeds on a system
of size `n`, the solution `x` returned by `SolveLinearSystem` has `n` rows, the returned
sequence has exactly `n / 6` transforms, and for every `i < n / 6` the `i`-th transform is
`TransformVector6dToMatrix4d` applied to the contiguous chunk `x[6 i, 6 i + 6)`, each
element of which is read inside `x`; for `n = 12` the sequence is the transform of
`x[0, 6)` followed by the transform of `x[6, 12)`. -/
theorem C6_chunks_in_order (cos sin : K → K) (isnan isinf : K → Bool) {n : Nat}
    (JTJ : Matrix (Fin n) (Fin n) K) (JTr : Fin n → K)
    (h : (SolveJacobianSystemAndObtainExtrinsicArrayBody cos sin isnan isinf JTJ JTr).1 =
      true) :
    (SolveLinearSystem isnan isinf JTJ JTr).1 = true ∧
    (SolveLinearSystem isnan isinf JTJ JTr).2.rows = n ∧
    (SolveJacobianSystemAndObtainExtrinsicArrayBody cos sin isnan isinf JTJ JTr).2.length =
      n / 6 ∧
    (∀ i : Nat, i < n / 6 →
      (SolveJacobianSystemAndObtainExtrinsicArrayBody cos sin isnan isinf JTJ JTr).2[i]? =
        some (TransformVector6dToMatrix4d cos sin
          ((SolveLinearSystem isnan isinf JTJ JTr).2.block6 (i * 6))) ∧
      ∀ k : Fin 6, ∃ hk : i * 6 + k.val < (SolveLinearSystem isnan isinf JTJ JTr).2.rows,
        (SolveLinearSystem isnan isinf JTJ JTr).2.block6 (i * 6) k =
          (SolveLinearSystem isnan isinf JTJ JTr).2.coeff ⟨i * 6 + k.val, hk⟩) ∧
    (n = 12 →
      (SolveJacobianSystemAndObtainExtrinsicArrayBody cos sin isnan isinf JTJ JTr).2 =
        [TransformVector6dToMatrix4d cos sin
          ((SolveLinearSystem isnan isinf JTJ JTr).2.block6 0),
         TransformVector6dToMatrix4d cos sin
          ((SolveLinearSystem isnan isinf JTJ JTr).2.block6 6)]) := by
  have hb := (Body_flag_iff cos sin isnan isinf JTJ JTr).2.mp h
  have h6 : n % 6 = 0 := hb.1.2
  have hS := SolveLinearSystem_of_ok isnan isinf JTJ JTr hb.2
  have hflag : (SolveLinearSystem isnan isinf JTJ JTr).1 = true := by rw [hS]
  have hrows : (SolveLinearSystem isnan isinf JTJ JTr).2.rows = n := by rw [hS]; rfl
  have hB := Body_of_wellshaped cos sin isnan isinf JTJ JTr h6
  rw [if_pos hflag] at hB
  rw [hB]
  refine ⟨hflag, hrows, ?_, ?_, ?_⟩
  · simp [hrows]
  · intro i hi
    refine ⟨?_, ?_⟩
    · simp [hrows, hi]
    · intro k
      have hk6 := k.isLt
      have hk : i * 6 + k.val < (SolveLinearSystem isnan isinf JTJ JTr).2.rows := by
        rw [hrows]
        omega
      exact ⟨hk, dif_pos hk⟩
  · intro h12
    subst h12
    simp [hrows, List.range_succ]

/-- Witness for C6: the identity system of size 12 over the rationals with right-hand side
`(0, 1, ..., 11)`, with constant stand-ins for the trigonometric functions; the body
returns two transforms, of `x[0, 6)` and of `x[6, 12)` in this order. -/
theorem C6_chunks_in_order_witness :
    (SolveJacobianSystemAndObtainExtrinsicArrayBody (fun _ => 1) (fun _ => 0)
      (fun _ => false) isinfOverflow (1 : Matrix (Fin 12) (Fin 12) ℚ)
      sampleJTr12).1 = true ∧
    (SolveJacobianSystemAndObtainExtrinsicArrayBody (fun _ => 1) (fun _ => 0)
      (fun _ => false) isinfOverflow (1 : Matrix (Fin 12) (Fin 12) ℚ)
      sampleJTr12).2 =
        [TransformVector6dToMatrix4d (fun _ => 1) (fun _ => 0)
          ((SolveLinearSystem (fun _ => false) isinfOverflow
            (1 : Matrix (Fin 12) (Fin 12) ℚ) sampleJTr12).2.block6 0),
         TransformVector6dToMatrix4d (fun _ => 1) (fun _ => 0)
          ((SolveLinearSystem (fun _ => false) isinfOverflow
            (1 : Matrix (Fin 12) (Fin 12) ℚ) sampleJTr12).2.block6 6)] :=
  have h : (SolveJacobianSystemAndObtainExtrinsicArrayBody (fun _ => 1) (fun _ => 0)
      (fun _ => false) isinfOverflow (1 : Matrix (Fin 12) (Fin 12) ℚ)
      sampleJTr12).1 = true := by
    rw [(Body_flag_iff _ _ _ _ _ _).2]
    have hd : determinant (1 : Matrix (Fin 12) (Fin 12) ℚ) = 1 := determinant_one 12
    refine ⟨⟨rfl, rfl⟩, ?_, rfl, ?_⟩
    · rw [hd]
      norm_num
    · rw [hd]
      exact isinfOverflow_of_le_one _ (by norm_num)
  ⟨h, (C6_chunks_in_order (fun _ => 1) (fun _ => 0) (fun _ => false) isinfOverflow _ _
    h).2.2.2.2 rfl⟩

/-- The real cosine and sine satisfy `IsTrig`. -/
theorem real_isTrig : IsTrig Real.cos Real.sin := by
  refine ⟨fun a => ?_, fun a => ?_, fun a => ?_⟩
  · have := Real.cos_sq_add_sin_sq a
    linear_combination this
  · have h : a = 2 * (0.5 * a) := by ring
    conv_rhs => rw [h, Real.cos_two_mul, ← Real.cos_sq_add_sin_sq (0.5 * a)]
    ring
  · have h : a = 2 * (0.5 * a) := by ring
    conv_rhs => rw [h, Real.sin_two_mul]
    ring

/-- The rotation block of the transform is the matrix of the composed quaternion. -/
theorem block_rotation (cos sin : K → K) (input : Vector6d K) :
    block 3 3 (TransformVector6dToMatrix4d cos sin input) 0 0 (by omega) (by omega) =
      (((AngleAxisd.mk (input 2) UnitZ).mul cos sin
        (AngleAxisd.mk (input 1) UnitY)).mulAngleAxis cos sin
          (AngleAxisd.mk (input 0) UnitX)).matrix := by
  ext i j
  fin_cases i <;> fin_cases j <;>
    simp [block, TransformVector6dToMatrix4d, setBlock]

/-- The rotation block of the transform is `Rz * Ry * Rx`. -/
theorem block_rotation_eq (cos sin : K → K) (h : IsTrig cos sin) (input : Vector6d K) :
    block 3 3 (TransformVector6dToMatrix4d cos sin input) 0 0 (by omega) (by omega) =
      Rz cos sin (input 2) * Ry cos sin (input 1) * Rx cos sin (input 0) := by
  rw [block_rotation, Quaterniond.mulAngleAxis, AngleAxisd.mul,
    Quaterniond.matrix_mul, Quaterniond.matrix_mul, toQuaternion_matrix_UnitX cos sin h,
    toQuaternion_matrix_UnitY cos sin h, toQuaternion_matrix_UnitZ cos sin h]
  · exact toQuaternion_squaredNorm_UnitZ cos sin h _
  · exact toQuaternion_squaredNorm_UnitY cos sin h _
  · rw [Quaterniond.squaredNorm_mul, toQuaternion_squaredNorm_UnitZ cos sin h,
      toQuaternion_squaredNorm_UnitY cos sin h, mul_one]
  · exact toQuaternion_squaredNorm_UnitX cos sin h _

/-- C7: for every twist the upper-left 3 x 3 block of `TransformVector6dToMatrix4d` is
the product `Rz(rz) * Ry(ry) * Rx(rx)` of the elementary rotations about Z, Y and X, so
that on a column vector the X rotation acts first, then Y, then Z. -/
theorem C7_rotation_block_is_Rz_Ry_Rx (input : Vector6d ℝ) :
    block 3 3 (TransformVector6dToMatrix4d Real.cos Real.sin input) 0 0 (by omega)
        (by omega) =
      Rz Real.cos Real.sin (input 2) * Ry Real.cos Real.sin (input 1) *
        Rx Real.cos Real.sin (input 0) ∧
    ∀ v : Vector3d ℝ,
      (block 3 3 (TransformVector6dToMatrix4d Real.cos Real.sin input) 0 0 (by omega)
        (by omega)).mulVec v =
      (Rz Real.cos Real.sin (input 2)).mulVec
        ((Ry Real.cos Real.sin (input 1)).mulVec
          ((Rx Real.cos Real.sin (input 0)).mulVec v)) := by
  refine ⟨block_rotation_eq Real.cos Real.sin real_isTrig input, fun v => ?_⟩
  rw [block_rotation_eq Real.cos Real.sin real_isTrig input, Matrix.mulVec_mulVec,
    Matrix.mulVec_mulVec]

theorem Rx_orthogonal (cos sin : K → K) (h : IsTrig cos sin) (a : K) :
    (Rx cos sin a).transpose * Rx cos sin a = 1 ∧ determinant (Rx cos sin a) = 1 := by
  have h1 := h.1 a
  constructor
  · ext i j
    fin_cases i <;> fin_cases j <;>
      simp [Rx, Matrix.mul_apply, Fin.sum_univ_three, Matrix.vecHead, Matrix.vecTail] <;>
      first
      | linear_combination h1
      | ring1
  · simp [determinant, Rx, Matrix.det_fin_three, Matrix.vecHead, Matrix.vecTail]
    linear_combination h1

theorem Ry_orthogonal (cos sin : K → K) (h : IsTrig cos sin) (a : K) :
    (Ry cos sin a).transpose * Ry cos sin a = 1 ∧ determinant (Ry cos sin a) = 1 := by
  have h1 := h.1 a
  constructor
  · ext i j
    fin_cases i <;> fin_cases j <;>
      simp [Ry, Matrix.mul_apply, Fin.sum_univ_three, Matrix.vecHead, Matrix.vecTail] <;>
      first
      | linear_combination h1
      | ring1
  · simp [determinant, Ry, Matrix.det_fin_three, Matrix.vecHead, Matrix.vecTail]
    linear_combination h1

theorem Rz_orthogonal (cos sin : K → K) (h : IsTrig cos sin) (a : K) :
    (Rz cos sin a).transpose * Rz cos sin a = 1 ∧ determinant (Rz cos sin a) = 1 := by
  have h1 := h.1 a
  constructor
  · ext i j
    fin_cases i <;> fin_cases j <;>
      simp [Rz, Matrix.mul_apply, Fin.sum_univ_three, Matrix.vecHead, Matrix.vecTail] <;>
      first
      | linear_combination h1
      | ring1
  · simp [determinant, Rz, Matrix.det_fin_three, Matrix.vecHead, Matrix.vecTail]
    linear_combination h1

/-- Products of proper rotations are proper rotations. -/
theorem orthogonal_mul (A B : Matrix3d K)
    (hA : A.transpose * A = 1 ∧ determinant A = 1)
    (hB : B.transpose * B = 1 ∧ determinant B = 1) :
    (A * B).transpose * (A * B) = 1 ∧ determinant (A * B) = 1 := by
  constructor
  · rw [Matrix.transpose_mul, Matrix.mul_assoc, ← Matrix.mul_assoc A.transpose, hA.1,
      Matrix.one_mul, hB.1]
  · have h1 := hA.2
    have h2 := hB.2
    rw [determinant] at h1 h2 ⊢
    rw [Matrix.det_mul, h1, h2, mul_one]

/-- The rotation block of the transform is a proper rotation. -/
theorem block_rotation_orthogonal (cos sin : K → K) (h : IsTrig cos sin)
    (input : Vector6d K) :
    (block 3 3 (TransformVector6dToMatrix4d cos sin input) 0 0 (by omega)
        (by omega)).transpose *
      block 3 3 (TransformVector6dToMatrix4d cos sin input) 0 0 (by omega) (by omega) = 1 ∧
    determinant
      (block 3 3 (TransformVector6dToMatrix4d cos sin input) 0 0 (by omega) (by omega)) =
      1 := by
  rw [block_rotation_eq cos sin h]
  exact orthogonal_mul _ _
    (orthogonal_mul _ _ (Rz_orthogonal cos sin h _) (Ry_orthogonal cos sin h _))
    (Rx_orthogonal cos sin h _)

/-- C8: for every twist the upper-left 3 x 3 block `R` of `TransformVector6dToMatrix4d`
is a proper rotation: `Rᵀ R = I` and `det R = 1`. -/
theorem C8_rotation_block_is_proper_rotation (input : Vector6d ℝ) :
    (block 3 3 (TransformVector6dToMatrix4d Real.cos Real.sin input) 0 0 (by omega)
        (by omega)).transpose *
      block 3 3 (TransformVector6dToMatrix4d Real.cos Real.sin input) 0 0 (by omega)
        (by omega) = 1 ∧
    determinant
      (block 3 3 (TransformVector6dToMatrix4d Real.cos Real.sin input) 0 0 (by omega)
        (by omega)) = 1 :=
  block_rotation_orthogonal Real.cos Real.sin real_isTrig input

/-- The transform of a twist without rotation, entry by entry. -/
theorem transform_pure_translation (cos sin : K → K) (hc : cos 0 = 1) (hs : sin 0 = 0)
    (tx ty tz : K) :
    TransformVector6dToMatrix4d cos sin ![0, 0, 0, tx, ty, tz] =
      !![1, 0, 0, tx; 0, 1, 0, ty; 0, 0, 1, tz; 0, 0, 0, 1] := by
  ext i j
  fin_cases i <;> fin_cases j <;>
    simp [TransformVector6dToMatrix4d, setBlock, block31, Quaterniond.matrix,
      Quaterniond.mulAngleAxis, AngleAxisd.mul, Quaterniond.mul, AngleAxisd.toQuaternion,
      UnitX, UnitY, UnitZ, hc, hs, Matrix.vecHead, Matrix.vecTail, Fin.coe_ofNat_eq_mod]
  rfl

/-- C9: the zero twist is sent to the 4 x 4 identity matrix. -/
theorem C9_identity_twist :
    TransformVector6dToMatrix4d Real.cos Real.sin ![0, 0, 0, 0, 0, 0] = 1 := by
  rw [transform_pure_translation Real.cos Real.sin Real.cos_zero Real.sin_zero]
  ext i j
  fin_cases i <;> fin_cases j <;> simp [Matrix.vecHead, Matrix.vecTail]

/-- C10: a twist `(0, 0, 0, tx, ty, tz)` is sent to the matrix with identity rotation
block, translation column `(tx, ty, tz)` and bottom row `(0, 0, 0, 1)`; in particular
`(0, 0, 0, 1, 2, 3)` gives the identity rotation with translation column `(1, 2, 3)`. -/
theorem C10_pure_translation (tx ty tz : ℝ) :
    block 3 3 (TransformVector6dToMatrix4d Real.cos Real.sin ![0, 0, 0, tx, ty, tz]) 0 0
      (by omega) (by omega) = 1 ∧
    block 3 1 (TransformVector6dToMatrix4d Real.cos Real.sin ![0, 0, 0, tx, ty, tz]) 0 3
      (by omega) (by omega) = (fun i _ => ![tx, ty, tz] i) ∧
    TransformVector6dToMatrix4d Real.cos Real.sin ![0, 0, 0, tx, ty, tz] 3 =
      ![0, 0, 0, 1] ∧
    TransformVector6dToMatrix4d Real.cos Real.sin ![0, 0, 0, 1, 2, 3] =
      !![1, 0, 0, 1; 0, 1, 0, 2; 0, 0, 1, 3; 0, 0, 0, 1] := by
  rw [transform_pure_translation Real.cos Real.sin Real.cos_zero Real.sin_zero,
    transform_pure_translation Real.cos Real.sin Real.cos_zero Real.sin_zero]
  refine ⟨?_, ?_, ?_, rfl⟩
  · ext i j
    fin_cases i <;> fin_cases j <;> simp [block, Matrix.vecHead, Matrix.vecTail]
  · ext i j
    fin_cases i <;> fin_cases j <;> simp [block, Matrix.vecHead, Matrix.vecTail]
  · ext j
    fin_cases j <;> simp [Matrix.vecHead, Matrix.vecTail]

/-! ## Homogeneous matrices -/

/-- The translation column of the transform holds the last three entries of the twist. -/
theorem translationColumn_transform (cos sin : K → K) (input : Vector6d K) :
    translationColumn (TransformVector6dToMatrix4d cos sin input) =
      ![input 3, input 4, input 5] := by
  ext i
  fin_cases i <;>
    simp [translationColumn, block, TransformVector6dToMatrix4d, setBlock, block31,
      Fin.coe_ofNat_eq_mod]

/-- The bottom row of the transform is `(0, 0, 0, 1)`. -/
theorem bottom_row_transform (cos sin : K → K) (input : Vector6d K) :
    TransformVector6dToMatrix4d cos sin input 3 = ![0, 0, 0, 1] := by
  ext j
  fin_cases j <;>
    simp [TransformVector6dToMatrix4d, setBlock, Fin.coe_ofNat_eq_mod]

/-- The transform is the homogeneous matrix of its rotation block and translation
column. -/
theorem transform_eq_homogeneous (cos sin : K → K) (input : Vector6d K) :
    TransformVector6dToMatrix4d cos sin input =
      homogeneous (rotationBlock (TransformVector6dToMatrix4d cos sin input))
        (translationColumn (TransformVector6dToMatrix4d cos sin input)) := by
  ext i j
  fin_cases i <;> fin_cases j <;>
    simp [homogeneous, rotationBlock, translationColumn, block, Matrix.vecHead,
      Matrix.vecTail, TransformVector6dToMatrix4d, setBlock, Fin.coe_ofNat_eq_mod]

/-- The rotation block of the transform only reads the first three entries of the
twist. -/
theorem rotationBlock_transform (cos sin : K → K) (input : Vector6d K) :
    rotationBlock (TransformVector6dToMatrix4d cos sin input) =
      (((AngleAxisd.mk (input 2) UnitZ).mul cos sin
        (AngleAxisd.mk (input 1) UnitY)).mulAngleAxis cos sin
          (AngleAxisd.mk (input 0) UnitX)).matrix :=
  block_rotation cos sin input

/-- C12: for every twist the transform holds `(tx, ty, tz)` unchanged in its upper-right
column and `(0, 0, 0, 1)` in its bottom row; the translation column is the same for any
other rotation parameters, and the rotation block is the same for any other translation
parameters. -/
theorem C12_translation_and_rotation_are_independent (cos sin : K → K)
    (input other : Vector6d K) :
    translationColumn (TransformVector6dToMatrix4d cos sin input) =
      ![input 3, input 4, input 5] ∧
    TransformVector6dToMatrix4d cos sin input 3 = ![0, 0, 0, 1] ∧
    translationColumn (TransformVector6dToMatrix4d cos sin
        ![other 0, other 1, other 2, input 3, input 4, input 5]) =
      translationColumn (TransformVector6dToMatrix4d cos sin input) ∧
    rotationBlock (TransformVector6dToMatrix4d cos sin
        ![input 0, input 1, input 2, other 3, other 4, other 5]) =
      rotationBlock (TransformVector6dToMatrix4d cos sin input) := by
  refine ⟨translationColumn_transform cos sin input, bottom_row_transform cos sin input,
    ?_, ?_⟩
  · rw [translationColumn_transform, translationColumn_transform]
    rfl
  · rw [rotationBlock_transform, rotationBlock_transform]
    rfl

/-- C13: whenever `SolveLinearSystem` reports the system unsolvable, the vector returned
with the flag is `Vector6d::Zero()`: it has 6 rows, all zero, whatever the size `n` of
the system and whatever `b`. -/
theorem C13_failure_returns_zero_vector6 (isnan isinf : K → Bool) {n : Nat}
    (A : Matrix (Fin n) (Fin n) K) (b : Fin n → K)
    (h : (SolveLinearSystem isnan isinf A b).1 = false) :
    (SolveLinearSystem isnan isinf A b).2 = VectorXd.zero6 ∧
    (SolveLinearSystem isnan isinf A b).2.rows = 6 ∧
    ∀ k : Fin (SolveLinearSystem isnan isinf A b).2.rows,
      (SolveLinearSystem isnan isinf A b).2.coeff k = 0 := by
  have hf := (SolveLinearSystem_fst_eq_false_iff isnan isinf A b).mp h
  rw [SolveLinearSystem_of_fail isnan isinf A b hf]
  exact ⟨rfl, rfl, fun _ => rfl⟩

/-- Witness for C13: the zero system of size 12 over the rationals, with a right-hand
side of twelve ones; the vector returned has 6 rows, not 12. -/
theorem C13_failure_returns_zero_vector6_witness :
    (SolveLinearSystem (fun _ => false) isinfOverflow (0 : Matrix (Fin 12) (Fin 12) ℚ)
      (fun _ => 1)).1 = false ∧
    (SolveLinearSystem (fun _ => false) isinfOverflow (0 : Matrix (Fin 12) (Fin 12) ℚ)
      (fun _ => 1)).2.rows = 6 :=
  have h : (SolveLinearSystem (fun _ => false) isinfOverflow
      (0 : Matrix (Fin 12) (Fin 12) ℚ) (fun _ => 1)).1 = false := by
    rw [SolveLinearSystem_of_lt]
    rw [det_zero_pos_size 1, abs_zero]
    exact threshold_pos
  ⟨h, (C13_failure_returns_zero_vector6 _ _ _ _ h).2.1⟩

/-- The elementary rotations by the angle zero are the identity. -/
theorem R_zero (cos sin : K → K) (hc : cos 0 = 1) (hs : sin 0 = 0) :
    Rx cos sin 0 = 1 ∧ Ry cos sin 0 = 1 ∧ Rz cos sin 0 = 1 := by
  refine ⟨?_, ?_, ?_⟩ <;>
  · ext i j
    fin_cases i <;> fin_cases j <;>
      simp [Rx, Ry, Rz, hc, hs, Matrix.vecHead, Matrix.vecTail]

/-- The transform of a rotation about the X axis alone. -/
theorem transform_rotation_X (cos sin : K → K) (h : IsTrig cos sin) (hc : cos 0 = 1)
    (hs : sin 0 = 0) (a : K) :
    TransformVector6dToMatrix4d cos sin ![a, 0, 0, 0, 0, 0] =
      !![1, 0, 0, 0; 0, cos a, -sin a, 0; 0, sin a, cos a, 0; 0, 0, 0, 1] := by
  rw [transform_eq_homogeneous, translationColumn_transform, rotationBlock,
    block_rotation_eq cos sin h]
  have e0 : (![a, 0, 0, 0, 0, 0] : Vector6d K) 0 = a := rfl
  have e1 : (![a, 0, 0, 0, 0, 0] : Vector6d K) 1 = 0 := rfl
  have e2 : (![a, 0, 0, 0, 0, 0] : Vector6d K) 2 = 0 := rfl
  rw [e0, e1, e2, (R_zero cos sin hc hs).2.1, (R_zero cos sin hc hs).2.2, Matrix.one_mul,
    Matrix.one_mul]
  ext i j
  fin_cases i <;> fin_cases j <;>
    simp [homogeneous, Rx, Matrix.vecHead, Matrix.vecTail]
  rfl

/-- The transform of a rotation about the Z axis alone. -/
theorem transform_rotation_Z (cos sin : K → K) (h : IsTrig cos sin) (hc : cos 0 = 1)
    (hs : sin 0 = 0) (a : K) :
    TransformVector6dToMatrix4d cos sin ![0, 0, a, 0, 0, 0] =
      !![cos a, -sin a, 0, 0; sin a, cos a, 0, 0; 0, 0, 1, 0; 0, 0, 0, 1] := by
  rw [transform_eq_homogeneous, translationColumn_transform, rotationBlock,
    block_rotation_eq cos sin h]
  have e0 : (![0, 0, a, 0, 0, 0] : Vector6d K) 0 = 0 := rfl
  have e1 : (![0, 0, a, 0, 0, 0] : Vector6d K) 1 = 0 := rfl
  have e2 : (![0, 0, a, 0, 0, 0] : Vector6d K) 2 = a := rfl
  rw [e0, e1, e2, (R_zero cos sin hc hs).1, (R_zero cos sin hc hs).2.1, Matrix.mul_one,
    Matrix.mul_one]
  ext i j
  fin_cases i <;> fin_cases j <;>
    simp [homogeneous, Rz, Matrix.vecHead, Matrix.vecTail]
  rfl

/-- C11: a twist `(a, 0, 0, 0, 0, 0)` is sent to the homogeneous elementary rotation
about the X axis by `a`, a twist `(0, 0, a, 0, 0, 0)` to the homogeneous elementary
rotation about the Z axis by `a`, both with zero translation; the two instances at
`a = π / 2` are spelled out. -/
theorem C11_single_axis_rotation (a : ℝ) :
    TransformVector6dToMatrix4d Real.cos Real.sin ![a, 0, 0, 0, 0, 0] =
      !![1, 0, 0, 0; 0, Real.cos a, -Real.sin a, 0; 0, Real.sin a, Real.cos a, 0;
         0, 0, 0, 1] ∧
    TransformVector6dToMatrix4d Real.cos Real.sin ![0, 0, a, 0, 0, 0] =
      !![Real.cos a, -Real.sin a, 0, 0; Real.sin a, Real.cos a, 0, 0; 0, 0, 1, 0;
         0, 0, 0, 1] ∧
    TransformVector6dToMatrix4d Real.cos Real.sin ![Real.pi / 2, 0, 0, 0, 0, 0] =
      !![1, 0, 0, 0; 0, 0, -1, 0; 0, 1, 0, 0; 0, 0, 0, 1] ∧
    TransformVector6dToMatrix4d Real.cos Real.sin ![0, 0, Real.pi / 2, 0, 0, 0] =
      !![0, -1, 0, 0; 1, 0, 0, 0; 0, 0, 1, 0; 0, 0, 0, 1] := by
  refine ⟨transform_rotation_X Real.cos Real.sin real_isTrig Real.cos_zero Real.sin_zero a,
    transform_rotation_Z Real.cos Real.sin real_isTrig Real.cos_zero Real.sin_zero a,
    ?_, ?_⟩
  · rw [transform_rotation_X Real.cos Real.sin real_isTrig Real.cos_zero Real.sin_zero,
      Real.cos_pi_div_two, Real.sin_pi_div_two]
  · rw [transform_rotation_Z Real.cos Real.sin real_isTrig Real.cos_zero Real.sin_zero,
      Real.cos_pi_div_two, Real.sin_pi_div_two]

/-- The entry in row 0, column 1 of `Rz * Ry * Rx`. -/
theorem Rz_Ry_Rx_entry01 (cos sin : K → K) (a0 a1 a2 : K) :
    (Rz cos sin a2 * Ry cos sin a1 * Rx cos sin a0) 0 1 =
      cos a2 * sin a1 * sin a0 - sin a2 * cos a0 := by
  simp [Rx, Ry, Rz, Matrix.mul_apply, Fin.sum_univ_three, Matrix.vecHead, Matrix.vecTail]
  ring

/-- The entry in row 0, column 1 of the product in the swapped order, `Rx * Ry * Rz`. -/
theorem Rx_Ry_Rz_entry01 (cos sin : K → K) (a0 a1 a2 : K) :
    (Rx cos sin a0 * Ry cos sin a1 * Rz cos sin a2) 0 1 = -(cos a1 * sin a2) := by
  simp [Rx, Ry, Rz, Matrix.mul_apply, Fin.sum_univ_three, Matrix.vecHead, Matrix.vecTail]

/-- C14: the composition order matters: for the twist `(π / 2, 0, π / 2, 0, 0, 0)` the
rotation block of the transform is `Rz(rz) * Ry(ry) * Rx(rx)` and differs from the
product in the swapped order `Rx(rx) * Ry(ry) * Rz(rz)`. -/
theorem C14_rotation_order_matters :
    ∃ rx ry rz : ℝ,
      rotationBlock (TransformVector6dToMatrix4d Real.cos Real.sin
          ![rx, ry, rz, 0, 0, 0]) =
        Rz Real.cos Real.sin rz * Ry Real.cos Real.sin ry * Rx Real.cos Real.sin rx ∧
      rotationBlock (TransformVector6dToMatrix4d Real.cos Real.sin
          ![rx, ry, rz, 0, 0, 0]) ≠
        Rx Real.cos Real.sin rx * Ry Real.cos Real.sin ry * Rz Real.cos Real.sin rz := by
  refine ⟨Real.pi / 2, 0, Real.pi / 2, ?_, ?_⟩
  · exact block_rotation_eq Real.cos Real.sin real_isTrig _
  · intro heq
    rw [rotationBlock, block_rotation_eq Real.cos Real.sin real_isTrig] at heq
    have h01 := congrFun (congrFun heq 0) 1
    have e0 : (![Real.pi / 2, 0, Real.pi / 2, 0, 0, 0] : Vector6d ℝ) 0 = Real.pi / 2 := rfl
    have e1 : (![Real.pi / 2, 0, Real.pi / 2, 0, 0, 0] : Vector6d ℝ) 1 = 0 := rfl
    have e2 : (![Real.pi / 2, 0, Real.pi / 2, 0, 0, 0] : Vector6d ℝ) 2 = Real.pi / 2 := rfl
    rw [e0, e1, e2, Rz_Ry_Rx_entry01, Rx_Ry_Rz_entry01, Real.cos_pi_div_two,
      Real.sin_pi_div_two, Real.cos_zero, Real.sin_zero] at h01
    norm_num at h01

/-- The product of two homogeneous matrices. -/
theorem homogeneous_mul (R S : Matrix3d K) (t u : Vector3d K) :
    homogeneous R t * homogeneous S u = homogeneous (R * S) (R.mulVec u + t) := by
  ext i j
  fin_cases i <;> fin_cases j <;>
    simp [homogeneous, Matrix.mul_apply, Fin.sum_univ_four, Fin.sum_univ_three,
      Matrix.mulVec, Matrix.dotProduct, Matrix.vecHead, Matrix.vecTail]

/-- The homogeneous matrix of the identity rotation and zero translation. -/
theorem homogeneous_one : homogeneous (1 : Matrix3d K) 0 = 1 := by
  ext i j
  fin_cases i <;> fin_cases j <;> simp [homogeneous, Matrix.vecHead, Matrix.vecTail]

/-- Deleting the last row and column of a homogeneous matrix leaves its rotation
block. -/
theorem homogeneous_submatrix (R : Matrix3d K) (t : Vector3d K) :
    (homogeneous R t).submatrix (Fin.succAbove 3) (Fin.succAbove 3) = R := by
  ext i j
  fin_cases i <;> fin_cases j <;> rfl

/-- The determinant of a homogeneous matrix is that of its rotation block. -/
theorem determinant_homogeneous (R : Matrix3d K) (t : Vector3d K) :
    determinant (homogeneous R t) = determinant R := by
  have h0 : homogeneous R t 3 0 = 0 := rfl
  have h1 : homogeneous R t 3 1 = 0 := rfl
  have h2 : homogeneous R t 3 2 = 0 := rfl
  have h3 : homogeneous R t 3 3 = 1 := rfl
  rw [determinant, determinant, Matrix.det_succ_row _ 3, Fin.sum_univ_four, h0, h1, h2, h3,
    homogeneous_submatrix]
  simp

/-- The homogeneous matrix of an orthogonal `R` and any `t` has the two-sided inverse
with rotation block `Rᵀ` and translation `-Rᵀ t`. -/
theorem homogeneous_mul_inverse (R : Matrix3d K) (t : Vector3d K)
    (hR : R.transpose * R = 1) :
    homogeneous R t * homogeneous R.transpose (-(R.transpose.mulVec t)) = 1 ∧
    homogeneous R.transpose (-(R.transpose.mulVec t)) * homogeneous R t = 1 := by
  have hR2 : R * R.transpose = 1 := Matrix.mul_eq_one_comm.mp hR
  constructor
  · rw [homogeneous_mul, hR2, Matrix.mulVec_neg, Matrix.mulVec_mulVec, hR2,
      Matrix.one_mulVec, neg_add_cancel, homogeneous_one]
  · rw [homogeneous_mul, hR, add_neg_cancel, homogeneous_one]

/-- The transform has determinant 1 and the homogeneous matrix of `Rᵀ` and `-Rᵀ t` as
two-sided inverse, for any `cos` and `sin` with the trigonometric identities. -/
theorem transform_inverse (cos sin : K → K) (h : IsTrig cos sin) (input : Vector6d K) :
    determinant (TransformVector6dToMatrix4d cos sin input) = 1 ∧
    TransformVector6dToMatrix4d cos sin input *
      homogeneous (rotationBlock (TransformVector6dToMatrix4d cos sin input)).transpose
        (-((rotationBlock (TransformVector6dToMatrix4d cos sin input)).transpose.mulVec
          (translationColumn (TransformVector6dToMatrix4d cos sin input)))) = 1 ∧
    homogeneous (rotationBlock (TransformVector6dToMatrix4d cos sin input)).transpose
        (-((rotationBlock (TransformVector6dToMatrix4d cos sin input)).transpose.mulVec
          (translationColumn (TransformVector6dToMatrix4d cos sin input)))) *
      TransformVector6dToMatrix4d cos sin input = 1 := by
  have hR := block_rotation_orthogonal cos sin h input
  have hT := transform_eq_homogeneous cos sin input
  have hinv := homogeneous_mul_inverse
    (rotationBlock (TransformVector6dToMatrix4d cos sin input))
    (translationColumn (TransformVector6dToMatrix4d cos sin input)) hR.1
  refine ⟨?_, ?_, ?_⟩
  · calc determinant (TransformVector6dToMatrix4d cos sin input)
        = determinant (homogeneous
            (rotationBlock (TransformVector6dToMatrix4d cos sin input))
            (translationColumn (TransformVector6dToMatrix4d cos sin input))) :=
          congrArg determinant hT
      _ = 1 := by rw [determinant_homogeneous]; exact hR.2
  · conv_lhs => lhs; rw [hT]
    exact hinv.1
  · conv_lhs => rhs; rw [hT]
    exact hinv.2

/-- C17: for every twist the transform `T`, with rotation block `R` and translation `t`,
has determinant 1 and is invertible; its inverse is the homogeneous matrix with rotation
block `Rᵀ` and translation `-Rᵀ t`. -/
theorem C17_transform_is_invertible (input : Vector6d ℝ) :
    determinant (TransformVector6dToMatrix4d Real.cos Real.sin input) = 1 ∧
    TransformVector6dToMatrix4d Real.cos Real.sin input *
      homogeneous
        (rotationBlock (TransformVector6dToMatrix4d Real.cos Real.sin input)).transpose
        (-((rotationBlock
            (TransformVector6dToMatrix4d Real.cos Real.sin input)).transpose.mulVec
          (translationColumn (TransformVector6dToMatrix4d Real.cos Real.sin input)))) =
      1 ∧
    homogeneous
        (rotationBlock (TransformVector6dToMatrix4d Real.cos Real.sin input)).transpose
        (-((rotationBlock
            (TransformVector6dToMatrix4d Real.cos Real.sin input)).transpose.mulVec
          (translationColumn (TransformVector6dToMatrix4d Real.cos Real.sin input)))) *
      TransformVector6dToMatrix4d Real.cos Real.sin input = 1 ∧
    (TransformVector6dToMatrix4d Real.cos Real.sin input)⁻¹ =
      homogeneous
        (rotationBlock (TransformVector6dToMatrix4d Real.cos Real.sin input)).transpose
        (-((rotationBlock
            (TransformVector6dToMatrix4d Real.cos Real.sin input)).transpose.mulVec
          (translationColumn (TransformVector6dToMatrix4d Real.cos Real.sin input)))) := by
  have h := transform_inverse Real.cos Real.sin real_isTrig input
  exact ⟨h.1, h.2.1, h.2.2, Matrix.inv_eq_right_inv h.2.1⟩

/-- C16: the matrix `0.05 I` is symmetric, positive definite, a positive multiple of the
identity (condition number 1) and invertible, with inverse `20 I`; its determinant
`0.05 ^ 6` is below `1e-6`, so `SolveLinearSystem` reports it unsolvable for every
right-hand side: `solvable = false` does not imply that the matrix is singular. -/
theorem C16_threshold_rejects_invertible_system :
    ∃ A : Matrix6d ℝ,
      A = (0.05 : ℝ) • (1 : Matrix6d ℝ) ∧ A.IsSymm ∧
      (∀ v : Vector6d ℝ, v ≠ 0 → 0 < Matrix.dotProduct v (A.mulVec v)) ∧
      determinant A = 0.05 ^ 6 ∧ determinant A ≠ 0 ∧
      A * ((20 : ℝ) • (1 : Matrix6d ℝ)) = 1 ∧
      ∀ (isnan isinf : ℝ → Bool) (b : Vector6d ℝ),
        (SolveLinearSystem isnan isinf A b).1 = false := by
  have hdet : determinant ((0.05 : ℝ) • (1 : Matrix6d ℝ)) = 0.05 ^ 6 := by
    rw [determinant, Matrix.det_smul, Matrix.det_one, Fintype.card_fin, mul_one]
  refine ⟨(0.05 : ℝ) • (1 : Matrix6d ℝ), rfl, ?_, ?_, hdet, ?_, ?_, ?_⟩
  · exact Matrix.isSymm_one.smul _
  · intro v hv
    rw [Matrix.smul_mulVec_assoc, Matrix.one_mulVec, Matrix.dotProduct_smul, smul_eq_mul]
    have hne : Matrix.dotProduct v v ≠ 0 := fun h0 => hv (Matrix.dotProduct_self_eq_zero.mp h0)
    have hnn : 0 ≤ Matrix.dotProduct v v :=
      Finset.sum_nonneg fun i _ => mul_self_nonneg (v i)
    have hpos : 0 < Matrix.dotProduct v v := lt_of_le_of_ne hnn (Ne.symm hne)
    positivity
  · rw [hdet]
    norm_num
  · rw [Matrix.smul_mul, Matrix.one_mul, smul_smul]
    norm_num
  · intro isnan isinf b
    rw [SolveLinearSystem_of_lt]
    rw [hdet, abs_of_pos (by norm_num)]
    norm_num

end three

